import Mathlib

/-!
# Verification of the SMT portfolio loop (`smt_parallel.cpp`)

This file gives a shallow embedding of `smt::parallel::operator()` from
`src/smt/smt_parallel.cpp` and proves properties of the round loop, the
unit relay (`collect_units`), the race state (`finished_id` / `result` /
`done` under the mutex `mux`), the exception capture
(`ex_kind` / `ex_msg` / `error_code`), and the result merge.

Modelling conventions:
* Expressions are identified by natural-number codes shared across all
  arenas; the `ast_translation` maps, which maintain a one-to-one
  correspondence between arenas, are modelled as the identity on codes.
* `mk_not` and `mk_and` are injective constructors on codes.
* The sequential solver invoked by `context::check` is an external
  collaborator; its behaviour in each round is supplied by an oracle
  (`Round`): per worker, either a `CheckOutcome` (result, conflict count,
  unsat core, newly assigned literals, model, statistics) or a thrown
  exception.  Thread interleaving within a round is modelled by the
  oracle's `order` list: the mutex serialises all claim attempts, and the
  per-worker state is owned by one thread, so every concurrent execution
  is equivalent to some sequential processing order.
* `unsigned` arithmetic on `max_conflicts` is `Nat` arithmetic modulo
  `2 ^ 32`.
* `assert_expr` queues a formula in the worker's context; the next
  `check` internalizes every queued formula, assigning its literal at
  base level, so queued formulas enter `assigned_literals` before that
  check's newly derived literals.
-/

namespace smt

/-- Expression codes, shared across arenas (translation is the identity). -/
abbrev Expr := Nat

/-- Code of a list of expressions, used to build `mk_and` codes. -/
def listCode : List Expr → Nat
  | [] => 0
  | e :: es => Nat.pair e (listCode es) + 1

/-- `mk_not` from `ast_util`, as an injective code constructor. -/
def mk_not (e : Expr) : Expr := Nat.pair 1 e

/-- `mk_and` from `ast_util`, as an injective code constructor. -/
def mk_and (es : List Expr) : Expr := Nat.pair 2 (listCode es)

/-- `lbool` from `util/lbool.h`. -/
inductive Lbool where
  | l_false
  | l_undef
  | l_true
deriving DecidableEq, Repr

/-- `par_exception_kind` from `parallel::operator()`. -/
inductive ParExceptionKind where
  | DEFAULT_EX
  | ERROR_EX
deriving DecidableEq, Repr

/-- The exception finally surfaced by `parallel::operator()`:
`z3_error(error_code)` or `default_exception(ex_msg)`. -/
inductive ParError where
  | z3Error (code : Nat)
  | defaultExc (msg : String)
deriving DecidableEq, Repr

/-- An assigned literal as read by `collect_units`: the expression
`bool_var2expr(lit.var())` together with `lit.sign()`. -/
structure SLit where
  expr : Expr
  sign : Bool
deriving DecidableEq, Repr

/-- The expression a literal denotes: `if (lit.sign()) e = m.mk_not(e)`. -/
def lit_expr (l : SLit) : Expr := if l.sign then mk_not l.expr else l.expr

/-- One worker's `context` (plus its manager): the solver state owned by
one thread.  `assigned_literals` is the append-only log read by
`collect_units`; `asserted` records the calls to `assert_expr` and
`internalized` is the queue head marking how many of them the solver has
already internalized — at the start of the next `check`, each asserted
formula past this mark has its literal assigned at base level, entering
`assigned_literals` before that check's newly derived literals;
`last_core`, `model_val`, `m_num_conflicts` and `stats` hold what the
last `check` left in the context; `m_max_conflicts` is the fparams field
set at the start of `worker_thread`; `last_assumptions` records the
assumption vector `lasms` passed to the last `check`. -/
structure WorkerCtx where
  random_seed : Nat
  assigned_literals : List SLit
  asserted : List Expr
  internalized : Nat
  last_core : List Expr
  model_val : Option Nat
  m_num_conflicts : Nat
  m_max_conflicts : Nat
  last_assumptions : List Expr
  cancelled : Bool
  stats : Nat
deriving DecidableEq, Repr

instance : Inhabited WorkerCtx :=
  ⟨⟨0, [], [], 0, [], none, 0, 0, [], false, 0⟩⟩

/-- What one `pctx.check(lasms)` call did, as reported by the external
solving collaborator. -/
structure CheckOutcome where
  r : Lbool
  num_conflicts : Nat
  core : List Expr
  new_lits : List SLit
  model : Option Nat
  stats : Nat
deriving DecidableEq, Repr

/-- The behaviour of one worker's thread body in one round: the check
returns an outcome (with the lookahead cube the worker would adopt for
rounds `> 0`), or the solving call throws. -/
inductive WorkerEvent where
  | normal (out : CheckOutcome) (cubeChoice : Option Expr)
  | z3_error (code : Nat)
  | z3_exception (msg : String)
deriving DecidableEq, Repr

/-- One round of oracle data: the serialisation order of the worker
threads and each worker's event. -/
structure Round where
  order : List Nat
  events : Nat → WorkerEvent

/-- The shared state of one `parallel::operator()` call. -/
structure CallState where
  finished_id : Option Nat
  result : Lbool
  ex_msg : String
  ex_kind : ParExceptionKind
  error_code : Nat
  done : Bool
  num_rounds : Nat
  max_conflicts : Nat
  pasms : List (List Expr)
  workers : List WorkerCtx
  unit_set : Finset Nat
  unit_trail : List Expr
  unit_lim : List Nat

/-- The primary context fields written by the call: aggregate statistics,
the stored model and the unsat core. -/
structure PrimaryCtx where
  aux_stats : Nat
  m_model : Option Nat
  m_unsat_core : List Expr
deriving DecidableEq, Repr

/-- 2^32: the modulus of `unsigned` arithmetic. -/
def w32 : Nat := 2 ^ 32

/-- A fresh worker context as built in the setup loop:
`new_ctx.set_random_seed(i + ctx.get_fparams().m_random_seed)`. -/
def initWorker (seed : Nat) : WorkerCtx :=
  { random_seed := seed, assigned_literals := [], asserted := [],
    internalized := 0, last_core := [], model_val := none,
    m_num_conflicts := 0, m_max_conflicts := 0, last_assumptions := [],
    cancelled := false, stats := 0 }

/-- The state after the setup loop of `parallel::operator()`:
`n` workers with seeds `base_seed + i`, each worker's translated
assumption list equal to `asms` (translation is the identity),
`finished_id = UINT_MAX`, `max_conflicts = m_threads_max_conflicts`
(an `unsigned`), empty unit trail and `unit_lim[i] = 0`. -/
def initState (n base_seed b : Nat) (asms : List Expr) : CallState :=
  { finished_id := none, result := .l_undef, ex_msg := "",
    ex_kind := .DEFAULT_EX, error_code := 0, done := false,
    num_rounds := 0, max_conflicts := b % w32,
    pasms := List.replicate n asms,
    workers := (List.range n).map (fun i => initWorker (i + base_seed)),
    unit_set := ∅, unit_trail := [],
    unit_lim := List.replicate n 0 }

/-- Worker `i`'s context, `*pctxs[i]`. -/
def getW (st : CallState) (i : Nat) : WorkerCtx := st.workers.getD i default

/-- `unit_lim[i]`. -/
def limOf (st : CallState) (i : Nat) : Nat := st.unit_lim.getD i 0

/-! ## The unit relay: `collect_units` -/

/-- One step of the first `collect_units` loop body:
`if (!unit_set.contains(ce)) { unit_set.insert(ce); unit_trail.push_back(ce); }`. -/
def insertUnit (acc : Finset Nat × List Expr) (e : Expr) : Finset Nat × List Expr :=
  if e ∈ acc.1 then acc else (insert e acc.1, acc.2 ++ [e])

/-- The inner loop `for (j = unit_lim[i]; j < sz; ++j)` of the first
`collect_units` loop, for one worker's assigned-literal log. -/
def collectFromLog (lim : Nat) (log : List SLit) (acc : Finset Nat × List Expr) :
    Finset Nat × List Expr :=
  ((log.drop lim).map lit_expr).foldl insertUnit acc

/-- The first `collect_units` loop over all workers, paired with their
`unit_lim` entries. -/
def collectAll : List WorkerCtx → List Nat → (Finset Nat × List Expr) →
    Finset Nat × List Expr
  | [], _, acc => acc
  | _ :: _, [], acc => acc
  | w :: ws, lim :: lims, acc =>
      collectAll ws lims (collectFromLog lim w.assigned_literals acc)

/-- The second `collect_units` loop: assert `unit_trail[unit_lim[i] .. sz)`
(translated) into each worker. -/
def relayWorkers (trail : List Expr) (sz : Nat) :
    List WorkerCtx → List Nat → List WorkerCtx
  | [], _ => []
  | ws, [] => ws
  | w :: ws, lim :: lims =>
      { w with asserted := w.asserted ++ (trail.drop lim).take (sz - lim) } ::
        relayWorkers trail sz ws lims

/-- `collect_units` from `parallel::operator()`: collect each worker's
newly assigned top-level literals into the global unit set/trail, then
assert the trail suffix from `unit_lim[i]` into every worker and set
`unit_lim[i]` to the trail size. -/
def collect_units (st : CallState) : CallState :=
  let acc := collectAll st.workers st.unit_lim (st.unit_set, st.unit_trail)
  let sz := acc.2.length
  { st with
    unit_set := acc.1,
    unit_trail := acc.2,
    workers := relayWorkers acc.2 sz st.workers st.unit_lim,
    unit_lim := st.unit_lim.map (fun _ => sz) }

/-! ## The worker thread body -/

/-- The local assumption vector `lasms` of one round: a copy of
`pasms[i]`, extended by the cube chosen by `lookahead` when
`num_rounds > 0` and the cube is non-null. -/
def localAssumptions (pasms : List Expr) (num_rounds : Nat)
    (cubeChoice : Option Expr) : List Expr :=
  pasms ++ (if num_rounds > 0 then cubeChoice else none).toList

/-- `pctx.unsat_core().contains(c)` where `c` may be null. -/
def cubeInCore (c : Option Expr) (core : List Expr) : Bool :=
  match c with
  | none => false
  | some cl => core.contains cl

/-- Replace worker `i`'s context. -/
def setW (st : CallState) (i : Nat) (w : WorkerCtx) : CallState :=
  { st with workers := st.workers.set i w }

/-- The internalization `context::check` performs before searching: each
formula asserted via `assert_expr` since the previous check has its
literal assigned `true` at base level, so it is appended to the
assigned-literal log unless a literal for that expression is already
assigned. -/
def internalize (log : List SLit) (pend : List Expr) : List SLit :=
  pend.foldl
    (fun lg e => if e ∈ lg.map lit_expr then lg else lg ++ [⟨e, false⟩]) log

/-- The effect on worker `i`'s context of setting
`pctx.get_fparams().m_max_conflicts = max_conflicts` and running
`pctx.check(lasms)` with outcome `out`: the check first internalizes the
formulas asserted since the last check — their literals enter the
assigned-literal log at base level — and then the search appends the
newly derived literals. -/
def updCheck (st : CallState) (i : Nat) (out : CheckOutcome)
    (lasms : List Expr) : CallState :=
  setW st i
    { getW st i with
      assigned_literals :=
        internalize (getW st i).assigned_literals
          ((getW st i).asserted.drop (getW st i).internalized) ++ out.new_lits,
      internalized := (getW st i).asserted.length,
      last_core := out.core,
      model_val := out.model,
      m_num_conflicts := out.num_conflicts,
      m_max_conflicts := st.max_conflicts,
      last_assumptions := lasms,
      stats := out.stats }

/-- `for (ast_manager* m : pms) if (m != &pm) m->limit().cancel();` -/
def cancelOthers (st : CallState) (i : Nat) : CallState :=
  { st with
    workers := st.workers.mapIdx (fun j w =>
      if j = i then w else { w with cancelled := true }) }

/-- The claim block guarded by `mux`: the first worker to observe
`finished_id == UINT_MAX` records itself, the result and `done`, then
cancels every other manager; a later worker returns without writing. -/
def tryClaim (st : CallState) (i : Nat) (r : Lbool) : CallState :=
  if st.finished_id = none then
    cancelOthers
      { st with finished_id := some i, result := r, done := true } i
  else st

/-- The body of `worker_thread(i)` under one event: the `try` block on a
`normal` event (set `m_max_conflicts`, choose a cube for rounds `> 0`,
run `check`, then the three-way outcome analysis and the claim), and the
two `catch` blocks, which write the capture fields unconditionally and
set `done`. -/
def worker_thread (i : Nat) (ev : WorkerEvent) (st : CallState) : CallState :=
  match ev with
  | .z3_error code =>
      { st with error_code := code, ex_kind := .ERROR_EX, done := true }
  | .z3_exception msg =>
      { st with ex_msg := msg, ex_kind := .DEFAULT_EX, done := true }
  | .normal out cubeChoice =>
      let c : Option Expr := if st.num_rounds > 0 then cubeChoice else none
      let lasms := localAssumptions (st.pasms.getD i []) st.num_rounds cubeChoice
      let st1 := updCheck st i out lasms
      if out.r = .l_undef ∧ st.max_conflicts ≤ out.num_conflicts then
        st1
      else if out.r = .l_false ∧ cubeInCore c out.core then
        setW st1 i
          { getW st1 i with
            asserted := (getW st1 i).asserted ++ [mk_not (mk_and out.core)] }
      else
        tryClaim st1 i out.r

/-- One round's thread executions, serialised in the oracle's order. -/
def processEvents (order : List Nat) (evs : Nat → WorkerEvent)
    (st : CallState) : CallState :=
  order.foldl (fun s i => worker_thread i (evs i) s) st

/-- The end-of-round bookkeeping on a round without a winner:
`collect_units(); ++num_rounds; max_conflicts *= 2;` (unsigned). -/
def advance (st : CallState) : CallState :=
  let st1 := collect_units st
  { st1 with
    num_rounds := st1.num_rounds + 1,
    max_conflicts := st1.max_conflicts * 2 % w32 }

/-- The `while (true)` round loop, with fuel for termination: run the
round's threads, stop when `done` is set, otherwise relay units, double
the budget and loop. `none` means the fuel ran out. -/
def runRounds : Nat → (Nat → Round) → CallState → Option CallState
  | 0, _, _ => none
  | fuel + 1, orc, st =>
      let rd := orc st.num_rounds
      let st1 := processEvents rd.order rd.events st
      if st1.done then some st1 else runRounds fuel orc (advance st1)

/-! ## The epilogue of `parallel::operator()` -/

/-- The code after the round loop: fold every worker's statistics into
`ctx.m_aux_stats`; if no winner was recorded, surface the captured
exception; otherwise merge the winner's model or unsat core into the
primary context (a null model leaves `ctx.m_model` untouched) and return
`result`. -/
def epilogue (st : CallState) (pc : PrimaryCtx) :
    PrimaryCtx × Except ParError Lbool :=
  let pc1 := { pc with
    aux_stats := st.workers.foldl (fun a w => a + w.stats) pc.aux_stats }
  match st.finished_id with
  | none =>
      (pc1, .error (match st.ex_kind with
        | .ERROR_EX => .z3Error st.error_code
        | .DEFAULT_EX => .defaultExc st.ex_msg))
  | some fid =>
      let w := st.workers.getD fid default
      match st.result with
      | .l_true =>
          (match w.model_val with
           | some mdl => ({ pc1 with m_model := some mdl }, .ok .l_true)
           | none => (pc1, .ok .l_true))
      | .l_false =>
          ({ pc1 with m_unsat_core := pc1.m_unsat_core ++ w.last_core },
            .ok .l_false)
      | .l_undef => (pc1, .ok .l_undef)

/-- The whole call: the round loop from the freshly initialised state,
then the epilogue (when the loop terminates within the fuel). -/
def parallelOperator (n base_seed b : Nat) (asms : List Expr)
    (orc : Nat → Round) (fuel : Nat) (pc : PrimaryCtx) :
    Option (PrimaryCtx × Except ParError Lbool) :=
  (runRounds fuel orc (initState n base_seed b asms)).map
    (fun st => epilogue st pc)

/-! ## Specification-side definitions -/

/-- Whether, under budget `mc` in round `k`, a worker event makes the
worker reach the claim block: the check neither exhausted its budget
with an undefined result nor produced an unsat core containing the
worker's own cube, and nothing was thrown. -/
def eligible (mc k : Nat) (ev : WorkerEvent) : Bool :=
  match ev with
  | .normal out cc =>
      decide (¬(out.r = .l_undef ∧ mc ≤ out.num_conflicts) ∧
        ¬(out.r = .l_false ∧
            cubeInCore (if k > 0 then cc else none) out.core = true))
  | _ => false

/-- The first worker in the round's serialisation order whose event
reaches the claim block: the winner the race state must record. -/
def firstEligibleWinner (mc k : Nat) (order : List Nat)
    (evs : Nat → WorkerEvent) : Option Nat :=
  order.find? (fun i => eligible mc k (evs i))

/-- Well-formedness of one round of oracle data for `n` workers: the
serialisation order lists distinct spawned threads, each a worker index
below `n`. -/
def RoundWF (n : Nat) (rd : Round) : Prop :=
  rd.order.Nodup ∧ ∀ i ∈ rd.order, i < n

/-- The collaborator contract for the whole oracle: every round is
well-formed and every unsat core returned by a `check` call is a subset
of the assumptions passed to that call (the worker's translated caller
assumptions plus, in rounds after the first, its cube). -/
def OracleWF (n : Nat) (asms : List Expr) (orc : Nat → Round) : Prop :=
  ∀ r, RoundWF n (orc r) ∧
    ∀ i out cc, (orc r).events i = .normal out cc →
      out.core ⊆ localAssumptions asms r cc

/-- The captured exception payload corresponds to an exception actually
thrown by some spawned worker thread in some round. -/
def CapturedThrow (orc : Nat → Round) (st : CallState) : Prop :=
  (st.ex_kind = .ERROR_EX ∧
    ∃ r i, i ∈ (orc r).order ∧ (orc r).events i = .z3_error st.error_code) ∨
  (st.ex_kind = .DEFAULT_EX ∧
    ∃ r i, i ∈ (orc r).order ∧ (orc r).events i = .z3_exception st.ex_msg)

/-- Exception-capture invariant: whenever the loop is finished without a
winner, the capture fields record a really-thrown exception. -/
def ExcInv (orc : Nat → Round) (st : CallState) : Prop :=
  st.finished_id = none → st.done = true → CapturedThrow orc st

/-- Core-purity invariant: if a winner is recorded with an unsat result,
its stored unsat core is contained in that worker's translated caller
assumptions. -/
def CoreInv (st : CallState) : Prop :=
  ∀ w, st.finished_id = some w → st.result = .l_false →
    ∀ e ∈ (getW st w).last_core, e ∈ st.pasms.getD w []

/-- A recorded winner implies the finished flag. -/
def FinDone (st : CallState) : Prop :=
  ∀ w, st.finished_id = some w → st.done = true

/-- Coupling invariant of the global unit structures: the deduplication
set `unit_set` holds exactly the members of the trail, and no fact
appears twice in the trail. -/
def UnitInv (acc : Finset Nat × List Expr) : Prop :=
  (∀ x : Nat, x ∈ acc.1 ↔ x ∈ acc.2) ∧ acc.2.Nodup

/-- The states at the head of the round loop: the initial state, and the
state after the end-of-round bookkeeping of any round that set no
`done` flag. -/
inductive RoundReach (orc : Nat → Round) (st0 : CallState) : CallState → Prop
  | refl : RoundReach orc st0 st0
  | step (st : CallState) :
      RoundReach orc st0 st →
      (processEvents (orc st.num_rounds).order (orc st.num_rounds).events st).done = false →
      RoundReach orc st0
        (advance (processEvents (orc st.num_rounds).order (orc st.num_rounds).events st))

/-! ## Concrete instances used by witnesses and counterexamples -/

/-- Oracle for the C1 counterexample: the single worker's check returns
undef with zero conflicts — below the budget — e.g. because of
incompleteness, so the worker claims the race state with `l_undef`. -/
def orcC1 : Nat → Round :=
  fun _ => { order := [0],
             events := fun _ => .normal ⟨.l_undef, 0, [], [], none, 0⟩ none }

/-- Oracle for the C1 witness: the single worker throws `z3_error 42`. -/
def orcC1b : Nat → Round :=
  fun _ => { order := [0], events := fun _ => .z3_error 42 }

/-- The final state of the C1 witness run. -/
def stC1w : CallState :=
  processEvents [0] (orcC1b 0).events (initState 1 0 100 [])

/-- Events for the C2 counterexample: worker 0's check throws a
`z3_exception` with message `a`, worker 1's with message `b`. -/
def evsC2 : Nat → WorkerEvent :=
  fun i => if i = 0 then .z3_exception "a" else .z3_exception "b"

/-- A call state in which worker 0 has already won with a sat result,
but its context yields no model. -/
def stC10 : CallState :=
  { initState 1 0 5 [] with finished_id := some 0, result := .l_true }

/-- A call state for the C7 witness: two workers with one newly assigned
literal each, an empty trail, and fresh `unit_lim` offsets. -/
def stC7 : CallState :=
  { initState 2 0 10 [] with
    workers := [{ initWorker 0 with assigned_literals := [⟨4, false⟩] },
                { initWorker 1 with assigned_literals := [⟨5, true⟩] }] }

/-- Round 0 of the C4 counterexample: worker 0 exhausts its budget
deriving nothing; worker 1 exhausts its budget after deriving the
top-level fact `10`. -/
def rdC4a : Round :=
  { order := [0, 1],
    events := fun i =>
      if i = 0 then .normal ⟨.l_undef, 100, [], [], none, 0⟩ none
      else .normal ⟨.l_undef, 100, [], [⟨10, false⟩], none, 0⟩ none }

/-- Round 1 of the C4 counterexample: worker 0 adopts the cube `7` and
its check is unsat with core `[8, 7]` containing the cube, so it asserts
the negated core conjunction into its own context; worker 1 exhausts the
doubled budget after deriving the fact `11`. -/
def rdC4b : Round :=
  { order := [0, 1],
    events := fun i =>
      if i = 0 then .normal ⟨.l_false, 0, [8, 7], [], none, 0⟩ (some 7)
      else .normal ⟨.l_undef, 200, [], [⟨11, false⟩], none, 0⟩ none }

/-- Round 2 of the C4 counterexample: both workers exhaust their budget
deriving nothing; worker 0's check internalizes its queued exclusion
formula, whose literal enters the assigned-literal log. -/
def rdC4c : Round :=
  { order := [0, 1],
    events := fun i =>
      if i = 0 then .normal ⟨.l_undef, 400, [], [], none, 0⟩ none
      else .normal ⟨.l_undef, 400, [], [], none, 0⟩ none }

/-- Oracle for the C4 counterexample. -/
def orcC4 : Nat → Round :=
  fun r => if r = 0 then rdC4a else if r = 1 then rdC4b else rdC4c

/-- The state after three winnerless rounds of the C4 counterexample,
including the relay that ends round 2. -/
def stC4 : CallState :=
  advance (processEvents rdC4c.order rdC4c.events
    (advance (processEvents rdC4b.order rdC4b.events
      (advance (processEvents rdC4a.order rdC4a.events
        (initState 2 0 100 [8]))))))

/-- A two-worker state for the C4 witness: empty trail, fresh offsets,
one pending literal in each worker's log. -/
def stC4w : CallState :=
  { initState 2 0 10 [] with
    workers := [{ initWorker 0 with assigned_literals := [⟨21, false⟩] },
                { initWorker 1 with assigned_literals := [⟨22, true⟩] }] }

/-- A check outcome reporting sat with no conflicts: the C3 witness has
all three workers finish the same round with this definitive result. -/
def outC3 : CheckOutcome := ⟨.l_true, 0, [], [], some 1, 0⟩

/-- Events for the C3 witness: every worker finishes sat. -/
def evsC3 : Nat → WorkerEvent := fun _ => .normal outC3 none

/-- Events for the C6 counterexample: the single worker exhausts its
conflict budget of `2^31` with an undefined result, so the round has no
winner and the budget is doubled — overflowing `unsigned`. -/
def evsC6 : Nat → WorkerEvent :=
  fun _ => .normal ⟨.l_undef, 2 ^ 31, [], [], none, 0⟩ none

/-- Oracle for the C6 counterexample: every round spawns worker 0 with
the budget-exhausting event. -/
def orcC6 : Nat → Round := fun _ => { order := [0], events := evsC6 }

/-- A round-1 check outcome used to read off the worker's conflict limit
after the overflowing doubling. -/
def outC6b : CheckOutcome := ⟨.l_undef, 0, [], [], none, 0⟩

/-- Events for the C8 witness: the single worker claims immediately with
a sat result. -/
def evsC8 : Nat → WorkerEvent := fun _ => .normal ⟨.l_true, 0, [], [], none, 0⟩ none

/-- Oracle for the C8 witness. -/
def orcC8 : Nat → Round := fun _ => { order := [0], events := evsC8 }

/-- Initial state for the C8 witness: one worker, one caller assumption. -/
def stC8 : CallState := initState 1 0 5 [7]

/-- An inconclusive check outcome used in the C8 witness. -/
def outC8 : CheckOutcome := ⟨.l_undef, 0, [], [], none, 0⟩

/-- Events for the C5 witness: the single worker reports unsat with the
caller assumption `3` as its core. -/
def evsC5 : Nat → WorkerEvent :=
  fun _ => .normal ⟨.l_false, 0, [3], [], none, 0⟩ none

/-- Oracle for the C5 witness. -/
def orcC5 : Nat → Round := fun _ => { order := [0], events := evsC5 }

/-- The final state of the C5 witness run: the worker claims with unsat
in round 0. -/
def stC5 : CallState := processEvents [0] evsC5 (initState 1 0 9 [3])

/-- A claimed two-round state used by the C5 witness for the local
cube-exclusion conjunct. -/
def stC5b : CallState := { initState 1 0 9 [3] with num_rounds := 1 }

/-- An unsat check outcome whose core contains the worker's cube `9`. -/
def outC5b : CheckOutcome := ⟨.l_false, 0, [3, 9], [], none, 0⟩

/-! ## Frame and preservation lemmas -/

theorem tryClaim_pasms (st : CallState) (i : Nat) (r : Lbool) :
    (tryClaim st i r).pasms = st.pasms := by
  unfold tryClaim cancelOthers
  split <;> rfl

theorem tryClaim_max_conflicts (st : CallState) (i : Nat) (r : Lbool) :
    (tryClaim st i r).max_conflicts = st.max_conflicts := by
  unfold tryClaim cancelOthers
  split <;> rfl

theorem tryClaim_num_rounds (st : CallState) (i : Nat) (r : Lbool) :
    (tryClaim st i r).num_rounds = st.num_rounds := by
  unfold tryClaim cancelOthers
  split <;> rfl

theorem wt_pasms (i : Nat) (ev : WorkerEvent) (st : CallState) :
    (worker_thread i ev st).pasms = st.pasms := by
  cases ev with
  | z3_error code => rfl
  | z3_exception msg => rfl
  | normal out cc =>
    simp only [worker_thread]
    repeat' split
    all_goals first | rfl | exact tryClaim_pasms ..

theorem wt_max_conflicts (i : Nat) (ev : WorkerEvent) (st : CallState) :
    (worker_thread i ev st).max_conflicts = st.max_conflicts := by
  cases ev with
  | z3_error code => rfl
  | z3_exception msg => rfl
  | normal out cc =>
    simp only [worker_thread]
    repeat' split
    all_goals first | rfl | exact tryClaim_max_conflicts ..

theorem wt_num_rounds (i : Nat) (ev : WorkerEvent) (st : CallState) :
    (worker_thread i ev st).num_rounds = st.num_rounds := by
  cases ev with
  | z3_error code => rfl
  | z3_exception msg => rfl
  | normal out cc =>
    simp only [worker_thread]
    repeat' split
    all_goals first | rfl | exact tryClaim_num_rounds ..

theorem processEvents_nil (evs : Nat → WorkerEvent) (st : CallState) :
    processEvents [] evs st = st := rfl

theorem processEvents_cons (j : Nat) (rest : List Nat) (evs : Nat → WorkerEvent)
    (st : CallState) :
    processEvents (j :: rest) evs st =
      processEvents rest evs (worker_thread j (evs j) st) := rfl

theorem processEvents_pres (P : CallState → Prop)
    (h : ∀ i ev st, P st → P (worker_thread i ev st)) :
    ∀ (order : List Nat) (evs : Nat → WorkerEvent) (st : CallState),
      P st → P (processEvents order evs st) := by
  intro order
  induction order with
  | nil => intro evs st hst; exact hst
  | cons j rest ih =>
      intro evs st hst
      exact ih evs _ (h _ _ _ hst)

theorem pe_pasms (order : List Nat) (evs : Nat → WorkerEvent) (st : CallState) :
    (processEvents order evs st).pasms = st.pasms := by
  induction order generalizing st with
  | nil => rfl
  | cons j rest ih => rw [processEvents_cons, ih, wt_pasms]

theorem pe_max_conflicts (order : List Nat) (evs : Nat → WorkerEvent) (st : CallState) :
    (processEvents order evs st).max_conflicts = st.max_conflicts := by
  induction order generalizing st with
  | nil => rfl
  | cons j rest ih => rw [processEvents_cons, ih, wt_max_conflicts]

theorem pe_num_rounds (order : List Nat) (evs : Nat → WorkerEvent) (st : CallState) :
    (processEvents order evs st).num_rounds = st.num_rounds := by
  induction order generalizing st with
  | nil => rfl
  | cons j rest ih => rw [processEvents_cons, ih, wt_num_rounds]

theorem cu_pasms (st : CallState) : (collect_units st).pasms = st.pasms := rfl

theorem cu_num_rounds (st : CallState) :
    (collect_units st).num_rounds = st.num_rounds := rfl

theorem cu_max_conflicts (st : CallState) :
    (collect_units st).max_conflicts = st.max_conflicts := rfl

theorem adv_pasms (st : CallState) : (advance st).pasms = st.pasms := rfl

theorem adv_num_rounds (st : CallState) :
    (advance st).num_rounds = st.num_rounds + 1 := rfl

theorem adv_max_conflicts (st : CallState) :
    (advance st).max_conflicts = st.max_conflicts * 2 % w32 := rfl

theorem getW_setW (st : CallState) (i : Nat) (w : WorkerCtx)
    (h : i < st.workers.length) : getW (setW st i w) i = w := by
  unfold getW setW
  dsimp only
  rw [List.getD_eq_getElem?_getD, List.getElem?_set_self]
  · rfl
  · exact h

theorem getW_cancelOthers (st : CallState) (i : Nat) :
    getW (cancelOthers st i) i = getW st i := by
  unfold getW cancelOthers
  dsimp only
  rw [List.getD_eq_getElem?_getD, List.getD_eq_getElem?_getD, List.getElem?_mapIdx]
  cases st.workers[i]? <;> simp

/-- The worker thread writes the shared `max_conflicts` into its own
context's `m_max_conflicts` fparams field before checking, and no later
step of the thread body changes it back. -/
theorem wt_param_set (i : Nat) (out : CheckOutcome) (cc : Option Expr)
    (st : CallState) (h : i < st.workers.length) :
    (getW (worker_thread i (.normal out cc) st) i).m_max_conflicts =
      st.max_conflicts := by
  simp only [worker_thread, updCheck, tryClaim]
  repeat' split
  all_goals
    simp [cancelOthers, setW, getW, List.getD_eq_getElem?_getD,
      List.getElem?_set_self, List.getElem?_mapIdx, h, List.length_set]

/-- The assumption vector passed to `check` by the worker thread is the
local copy of `pasms[i]`, extended by the cube only in rounds `> 0`. -/
theorem wt_lasms (i : Nat) (out : CheckOutcome) (cc : Option Expr)
    (st : CallState) (h : i < st.workers.length) :
    (getW (worker_thread i (.normal out cc) st) i).last_assumptions =
      localAssumptions (st.pasms.getD i []) st.num_rounds cc := by
  simp only [worker_thread, updCheck, tryClaim]
  repeat' split
  all_goals
    simp [cancelOthers, setW, getW, List.getD_eq_getElem?_getD,
      List.getElem?_set_self, List.getElem?_mapIdx, h, List.length_set]

theorem localAssumptions_round0 (p : List Expr) (cc : Option Expr) :
    localAssumptions p 0 cc = p := by
  simp [localAssumptions]

theorem localAssumptions_pos (p : List Expr) (k : Nat) (cc : Option Expr)
    (hk : k > 0) : localAssumptions p k cc = p ++ cc.toList := by
  simp [localAssumptions, hk]

/-- The round loop never modifies the per-worker translated assumption
lists. -/
theorem rr_pasms : ∀ (fuel : Nat) (orc : Nat → Round) (st st' : CallState),
    runRounds fuel orc st = some st' → st'.pasms = st.pasms := by
  intro fuel
  induction fuel with
  | zero => intro orc st st' h; cases h
  | succ fuel ih =>
      intro orc st st' h
      rw [runRounds] at h
      split at h
      · injection h with h2
        rw [← h2]
        exact pe_pasms ..
      · rw [ih orc _ st' h, adv_pasms, pe_pasms]

theorem tryClaim_none (st : CallState) (i : Nat) (r : Lbool)
    (h : st.finished_id = none) :
    (tryClaim st i r).finished_id = some i ∧ (tryClaim st i r).result = r ∧
    (tryClaim st i r).done = true := by
  unfold tryClaim
  rw [if_pos h]
  exact ⟨rfl, rfl, rfl⟩

theorem tryClaim_some (st : CallState) (i : Nat) (r : Lbool)
    (h : st.finished_id ≠ none) :
    tryClaim st i r = st := by
  unfold tryClaim
  rw [if_neg h]

/-- Under the mutex, a worker arriving at the claim block after a winner
was already recorded returns without modifying `finished_id`, `result`
or `done`. -/
theorem wt_claimed_frame (i : Nat) (out : CheckOutcome) (cc : Option Expr)
    (st : CallState) (w : Nat) (hf : st.finished_id = some w) :
    (worker_thread i (.normal out cc) st).finished_id = some w ∧
    (worker_thread i (.normal out cc) st).result = st.result ∧
    (worker_thread i (.normal out cc) st).done = st.done := by
  simp only [worker_thread]
  repeat' split
  all_goals first
    | exact ⟨hf, rfl, rfl⟩
    | (rw [tryClaim_some _ _ _ (by simp [updCheck, setW, hf])]
       exact ⟨hf, rfl, rfl⟩)

/-- An eligible worker event arriving at an unclaimed race state claims
it: `finished_id`, `result` and `done` are written. -/
theorem wt_eligible_claims (i : Nat) (out : CheckOutcome) (cc : Option Expr)
    (st : CallState)
    (he : eligible st.max_conflicts st.num_rounds (.normal out cc) = true)
    (hf : st.finished_id = none) :
    (worker_thread i (.normal out cc) st).finished_id = some i ∧
    (worker_thread i (.normal out cc) st).result = out.r ∧
    (worker_thread i (.normal out cc) st).done = true := by
  simp only [eligible, decide_eq_true_eq] at he
  simp only [worker_thread]
  rw [if_neg he.1, if_neg ?hc]
  case hc =>
    intro hcc
    exact he.2 ⟨hcc.1, hcc.2⟩
  have h1 : (updCheck st i out
      (localAssumptions (st.pasms.getD i []) st.num_rounds cc)).finished_id = none := hf
  obtain ⟨a, b, c⟩ := tryClaim_none _ i out.r h1
  exact ⟨a, b, c⟩

/-- An ineligible worker event (budget exhausted with an undefined
result, or an unsat core containing the worker's own cube) leaves
`finished_id`, `result` and `done` unchanged. -/
theorem wt_ineligible_frame (i : Nat) (out : CheckOutcome) (cc : Option Expr)
    (st : CallState)
    (he : eligible st.max_conflicts st.num_rounds (.normal out cc) = false) :
    (worker_thread i (.normal out cc) st).finished_id = st.finished_id ∧
    (worker_thread i (.normal out cc) st).result = st.result ∧
    (worker_thread i (.normal out cc) st).done = st.done := by
  simp only [eligible, decide_eq_false_iff_not] at he
  have hor : (out.r = .l_undef ∧ st.max_conflicts ≤ out.num_conflicts) ∨
      (out.r = .l_false ∧
        cubeInCore (if st.num_rounds > 0 then cc else none) out.core = true) := by
    tauto
  simp only [worker_thread]
  rcases hor with h1 | h2
  · rw [if_pos h1]
    exact ⟨rfl, rfl, rfl⟩
  · by_cases h1 : out.r = .l_undef ∧ st.max_conflicts ≤ out.num_conflicts
    · rw [if_pos h1]
      exact ⟨rfl, rfl, rfl⟩
    · rw [if_neg h1, if_pos h2]
      exact ⟨rfl, rfl, rfl⟩

/-- Once the race state is claimed with `done` set, the remaining thread
bodies of the round leave the winner, the result and the flag alone. -/
theorem pe_claimed (order : List Nat) (evs : Nat → WorkerEvent)
    (st : CallState) (w : Nat) (r : Lbool) (h1 : st.finished_id = some w)
    (h2 : st.result = r) (h3 : st.done = true) :
    (processEvents order evs st).finished_id = some w ∧
    (processEvents order evs st).result = r ∧
    (processEvents order evs st).done = true := by
  refine processEvents_pres
    (fun s => s.finished_id = some w ∧ s.result = r ∧ s.done = true)
    ?_ order evs st ⟨h1, h2, h3⟩
  intro i ev s hs
  cases ev with
  | normal out cc =>
      obtain ⟨a, b, c⟩ := wt_claimed_frame i out cc s w hs.1
      exact ⟨a, b.trans hs.2.1, c.trans hs.2.2⟩
  | z3_error code => exact ⟨hs.1, hs.2.1, rfl⟩
  | z3_exception msg => exact ⟨hs.1, hs.2.1, rfl⟩

/-- The race during one round, from an unclaimed state: the recorded
winner is exactly the first eligible worker in the serialisation order,
and the shared result is that worker's check result. -/
theorem pe_race (order : List Nat) (evs : Nat → WorkerEvent) :
    ∀ st : CallState, st.finished_id = none →
      ((processEvents order evs st).finished_id =
        firstEligibleWinner st.max_conflicts st.num_rounds order evs) ∧
      (∀ i, firstEligibleWinner st.max_conflicts st.num_rounds order evs = some i →
        ∃ out cc, evs i = .normal out cc ∧
          (processEvents order evs st).result = out.r ∧
          (processEvents order evs st).done = true) := by
  induction order with
  | nil =>
      intro st hf
      refine ⟨hf, ?_⟩
      intro i hi
      simp [firstEligibleWinner] at hi
  | cons j rest ih =>
      intro st hf
      by_cases he : eligible st.max_conflicts st.num_rounds (evs j) = true
      · have hfw : firstEligibleWinner st.max_conflicts st.num_rounds (j :: rest) evs
            = some j := List.find?_cons_of_pos rest he
        cases hev : evs j with
        | normal out cc =>
          rw [hev] at he
          obtain ⟨a, b, c⟩ := wt_eligible_claims j out cc st he hf
          rw [processEvents_cons, hev]
          obtain ⟨a', b', c'⟩ := pe_claimed rest evs _ j out.r a b c
          refine ⟨by rw [a', hfw], ?_⟩
          intro i hi
          rw [hfw] at hi
          cases hi
          exact ⟨out, cc, hev, b', c'⟩
        | z3_error code =>
          rw [hev] at he
          simp [eligible] at he
        | z3_exception msg =>
          rw [hev] at he
          simp [eligible] at he
      · have he' : eligible st.max_conflicts st.num_rounds (evs j) = false :=
          Bool.eq_false_iff.mpr he
        have hfw : firstEligibleWinner st.max_conflicts st.num_rounds (j :: rest) evs
            = firstEligibleWinner st.max_conflicts st.num_rounds rest evs :=
          List.find?_cons_of_neg rest (by simp [he'])
        set st' := worker_thread j (evs j) st with hst'
        have hmc : st'.max_conflicts = st.max_conflicts := wt_max_conflicts ..
        have hnr : st'.num_rounds = st.num_rounds := wt_num_rounds ..
        have hf' : st'.finished_id = none := by
          cases hev : evs j with
          | normal out cc =>
            rw [hst', hev]
            exact ((wt_ineligible_frame j out cc st (by rw [hev] at he'; exact he')).1).trans hf
          | z3_error code =>
            rw [hst', hev]
            exact hf
          | z3_exception msg =>
            rw [hst', hev]
            exact hf
        obtain ⟨ihA, ihB⟩ := ih st' hf'
        rw [hmc, hnr] at ihA ihB
        rw [processEvents_cons]
        exact ⟨by rw [← hst', ihA, hfw], by rw [hfw]; exact fun i hi => ihB i hi⟩

theorem wt_workers_length (i : Nat) (ev : WorkerEvent) (st : CallState) :
    (worker_thread i ev st).workers.length = st.workers.length := by
  cases ev with
  | z3_error code => rfl
  | z3_exception msg => rfl
  | normal out cc =>
    simp only [worker_thread, updCheck, tryClaim]
    repeat' split
    all_goals simp [cancelOthers, setW]

theorem pe_workers_length (order : List Nat) (evs : Nat → WorkerEvent)
    (st : CallState) :
    (processEvents order evs st).workers.length = st.workers.length := by
  induction order generalizing st with
  | nil => rfl
  | cons j rest ih => rw [processEvents_cons, ih, wt_workers_length]

theorem relayWorkers_length (trail : List Expr) (sz : Nat) :
    ∀ (ws : List WorkerCtx) (lims : List Nat),
      (relayWorkers trail sz ws lims).length = ws.length := by
  intro ws
  induction ws with
  | nil => intro lims; cases lims <;> rfl
  | cons w ws ih =>
      intro lims
      cases lims with
      | nil => rfl
      | cons lim lims => simp [relayWorkers, ih lims]

theorem cu_workers_length (st : CallState) :
    (collect_units st).workers.length = st.workers.length := by
  show (relayWorkers _ _ st.workers st.unit_lim).length = _
  rw [relayWorkers_length]

theorem cu_finished (st : CallState) :
    (collect_units st).finished_id = st.finished_id := rfl

theorem cu_result (st : CallState) :
    (collect_units st).result = st.result := rfl

theorem cu_done (st : CallState) : (collect_units st).done = st.done := rfl

theorem adv_finished (st : CallState) :
    (advance st).finished_id = st.finished_id := rfl

theorem adv_result (st : CallState) : (advance st).result = st.result := rfl

theorem adv_done (st : CallState) : (advance st).done = st.done := rfl

theorem adv_workers_length (st : CallState) :
    (advance st).workers.length = st.workers.length := cu_workers_length st

/-- Any normal event leaves the worker's context holding the unsat core
of this round's check. -/
theorem wt_last_core_self (i : Nat) (out : CheckOutcome) (cc : Option Expr)
    (st : CallState) (h : i < st.workers.length) :
    (getW (worker_thread i (.normal out cc) st) i).last_core = out.core := by
  simp only [worker_thread, updCheck, tryClaim]
  repeat' split
  all_goals
    simp [cancelOthers, setW, getW, List.getD_eq_getElem?_getD,
      List.getElem?_set_self, List.getElem?_mapIdx, h, List.length_set]

/-- A worker thread never changes another worker's stored unsat core. -/
theorem wt_last_core_ne (j : Nat) (ev : WorkerEvent) (st : CallState)
    (w : Nat) (hne : w ≠ j) :
    (getW (worker_thread j ev st) w).last_core = (getW st w).last_core := by
  have hne' : j ≠ w := fun hc => hne hc.symm
  cases ev with
  | z3_error code => rfl
  | z3_exception msg => rfl
  | normal out cc =>
    simp only [worker_thread, updCheck, tryClaim]
    repeat' split
    all_goals
      simp only [cancelOthers, setW, getW, List.getD_eq_getElem?_getD,
        List.getElem?_mapIdx, List.getElem?_set_ne hne']
    all_goals
      cases st.workers[w]? <;> simp [hne]

theorem relayWorkers_getD_last_core (trail : List Expr) (sz : Nat) :
    ∀ (ws : List WorkerCtx) (lims : List Nat) (i : Nat),
      ((relayWorkers trail sz ws lims).getD i default).last_core =
        (ws.getD i default).last_core := by
  intro ws
  induction ws with
  | nil => intro lims i; cases lims <;> rfl
  | cons w ws ih =>
      intro lims i
      cases lims with
      | nil => rfl
      | cons lim lims =>
          cases i with
          | zero => rfl
          | succ i =>
              show ((relayWorkers trail sz ws lims).getD i default).last_core = _
              rw [ih lims i]
              rfl

theorem cu_last_core (st : CallState) (w : Nat) :
    (getW (collect_units st) w).last_core = (getW st w).last_core := by
  show ((relayWorkers _ _ st.workers st.unit_lim).getD w default).last_core = _
  rw [relayWorkers_getD_last_core]
  rfl

/-- A worker thread preserves the invariant that a recorded winner
implies the finished flag. -/
theorem wt_findone (i : Nat) (ev : WorkerEvent) (st : CallState)
    (h : FinDone st) : FinDone (worker_thread i ev st) := by
  cases ev with
  | z3_error code => intro w _; rfl
  | z3_exception msg => intro w _; rfl
  | normal out cc =>
    rcases hf : st.finished_id with _ | w0
    · by_cases he : eligible st.max_conflicts st.num_rounds (.normal out cc) = true
      · obtain ⟨a, b, c⟩ := wt_eligible_claims i out cc st he hf
        intro w _
        exact c
      · obtain ⟨a, b, c⟩ := wt_ineligible_frame i out cc st (Bool.eq_false_iff.mpr he)
        intro w hw
        rw [a, hf] at hw
        cases hw
    · obtain ⟨a, b, c⟩ := wt_claimed_frame i out cc st w0 hf
      intro w hw
      rw [c]
      exact h w0 hf

theorem pe_findone (order : List Nat) (evs : Nat → WorkerEvent)
    (st : CallState) (h : FinDone st) :
    FinDone (processEvents order evs st) :=
  processEvents_pres FinDone (fun i ev s hs => wt_findone i ev s hs)
    order evs st h

/-- Core-purity invariant is maintained by one round's thread bodies:
with well-formed event data (distinct worker indices below `n`, cores
contained in the assumptions passed to `check`), a winner recorded
during the round with an unsat result holds a core free of its cube. -/
theorem pe_C5Inv (n : Nat) (asms : List Expr) (k : Nat)
    (evs : Nat → WorkerEvent)
    (hcores : ∀ i out cc, evs i = .normal out cc →
      out.core ⊆ localAssumptions asms k cc) :
    ∀ l : List Nat, l.Nodup → (∀ i ∈ l, i < n) → ∀ st : CallState,
      st.pasms = List.replicate n asms → st.num_rounds = k →
      st.workers.length = n →
      CoreInv st → (∀ w, st.finished_id = some w → w < n ∧ w ∉ l) →
      CoreInv (processEvents l evs st) ∧
      (∀ w, (processEvents l evs st).finished_id = some w → w < n) := by
  intro l
  induction l with
  | nil =>
      intro _ _ st _ _ _ hCore hfin
      exact ⟨hCore, fun w hw => (hfin w hw).1⟩
  | cons j rest ih =>
      intro hnd hbound st hpasms hk hlen hCore hfin
      have hnd' : rest.Nodup := (List.nodup_cons.mp hnd).2
      have hjrest : j ∉ rest := (List.nodup_cons.mp hnd).1
      have hbound' : ∀ i ∈ rest, i < n :=
        fun i hi => hbound i (List.mem_cons_of_mem _ hi)
      have hjn : j < n := hbound j (List.mem_cons_self _ _)
      have hpasms' : (worker_thread j (evs j) st).pasms = List.replicate n asms := by
        rw [wt_pasms]; exact hpasms
      have hk' : (worker_thread j (evs j) st).num_rounds = k := by
        rw [wt_num_rounds]; exact hk
      have hlen' : (worker_thread j (evs j) st).workers.length = n := by
        rw [wt_workers_length]; exact hlen
      rw [processEvents_cons]
      have hmain : CoreInv (worker_thread j (evs j) st) ∧
          (∀ w, (worker_thread j (evs j) st).finished_id = some w →
            w < n ∧ w ∉ rest) := by
        cases hev : evs j with
        | z3_error code =>
            refine ⟨hCore, fun w hw => ?_⟩
            obtain ⟨h1, h2⟩ := hfin w hw
            exact ⟨h1, fun hm => h2 (List.mem_cons_of_mem _ hm)⟩
        | z3_exception msg =>
            refine ⟨hCore, fun w hw => ?_⟩
            obtain ⟨h1, h2⟩ := hfin w hw
            exact ⟨h1, fun hm => h2 (List.mem_cons_of_mem _ hm)⟩
        | normal out cc =>
            rcases hf : st.finished_id with _ | w0
            · by_cases he : eligible st.max_conflicts st.num_rounds (.normal out cc) = true
              · obtain ⟨a, b, c⟩ := wt_eligible_claims j out cc st he hf
                constructor
                · intro w hw hres e hec
                  have hwj : w = j := by
                    rw [a] at hw
                    exact (Option.some.inj hw).symm
                  rw [hwj] at hec ⊢
                  have hrf : out.r = .l_false := by rw [← b]; exact hres
                  have hjlen : j < st.workers.length := by rw [hlen]; exact hjn
                  rw [wt_last_core_self j out cc st hjlen] at hec
                  have hsub := hcores j out cc hev
                  simp only [eligible, decide_eq_true_eq] at he
                  have hnocube : cubeInCore
                      (if st.num_rounds > 0 then cc else none) out.core = false := by
                    rcases hx : cubeInCore (if st.num_rounds > 0 then cc else none) out.core
                    · rfl
                    · exact absurd ⟨hrf, hx⟩ he.2
                  have hmem := hsub hec
                  rw [localAssumptions, ← hk] at hmem
                  rcases List.mem_append.mp hmem with hm | hm
                  · rw [wt_pasms, hpasms]
                    rw [List.getD_eq_getElem?_getD,
                      List.getElem?_replicate_of_lt hjn]
                    exact hm
                  · exfalso
                    rcases hcc : (if st.num_rounds > 0 then cc else none) with _ | cl
                    · rw [hcc] at hm
                      cases hm
                    · rw [hcc] at hm hnocube
                      have : e = cl := by
                        rcases List.mem_cons.mp hm with h | h
                        · exact h
                        · cases h
                      subst this
                      simp only [cubeInCore] at hnocube
                      have : e ∈ out.core → out.core.contains e = true := by
                        intro hx
                        simp [hx]
                      rw [this hec] at hnocube
                      cases hnocube
                · intro w hw
                  have hwj : w = j := by
                    rw [a] at hw
                    exact (Option.some.inj hw).symm
                  rw [hwj]
                  exact ⟨hjn, hjrest⟩
              · obtain ⟨a, b, c⟩ :=
                  wt_ineligible_frame j out cc st (Bool.eq_false_iff.mpr he)
                constructor
                · intro w hw
                  rw [a, hf] at hw
                  cases hw
                · intro w hw
                  rw [a, hf] at hw
                  cases hw
            · obtain ⟨a, b, c⟩ := wt_claimed_frame j out cc st w0 hf
              constructor
              · intro w hw hres e hec
                have hww : w = w0 := by
                  rw [a] at hw
                  exact (Option.some.inj hw).symm
                rw [hww] at hec ⊢
                have hne : w0 ≠ j := by
                  intro hc
                  exact (hfin w0 hf).2 (hc ▸ List.mem_cons_self _ _)
                rw [wt_last_core_ne j (.normal out cc) st w0 hne] at hec
                have hres0 : st.result = .l_false := by rw [← b]; exact hres
                have := hCore w0 hf hres0 e hec
                rw [wt_pasms]
                exact this
              · intro w hw
                rw [a] at hw
                obtain ⟨h1, h2⟩ := hfin w ((Option.some.inj hw) ▸ hf)
                exact ⟨h1, fun hm => h2 (List.mem_cons_of_mem _ hm)⟩
      exact ih hnd' hbound' _ hpasms' hk' hlen' hmain.1 hmain.2

/-- Core purity across the whole round loop: a completed run from an
unclaimed state under a well-formed oracle ends with the core-purity
invariant and a winner index below the worker count. -/
theorem rr_C5 (n : Nat) (asms : List Expr) (orc : Nat → Round)
    (hwf : OracleWF n asms orc) :
    ∀ (fuel : Nat) (st st' : CallState),
      st.pasms = List.replicate n asms → st.workers.length = n →
      st.finished_id = none →
      runRounds fuel orc st = some st' →
      CoreInv st' ∧ (∀ w, st'.finished_id = some w → w < n) := by
  intro fuel
  induction fuel with
  | zero => intro st st' _ _ _ h; cases h
  | succ fuel ih =>
      intro st st' hpasms hlen hfid h
      rw [runRounds] at h
      obtain ⟨hwf1, hwf2⟩ := hwf st.num_rounds
      have hpe := pe_C5Inv n asms st.num_rounds (orc st.num_rounds).events hwf2
        (orc st.num_rounds).order hwf1.1 hwf1.2 st hpasms rfl hlen
        (fun w hw => by rw [hfid] at hw; cases hw)
        (fun w hw => by rw [hfid] at hw; cases hw)
      split at h
      · injection h with h2
        rw [← h2]
        exact hpe
      · rename_i hdone
        have hfd : FinDone (processEvents (orc st.num_rounds).order
            (orc st.num_rounds).events st) :=
          pe_findone _ _ _ (fun w hw => by rw [hfid] at hw; cases hw)
        have hfid1 : (processEvents (orc st.num_rounds).order
            (orc st.num_rounds).events st).finished_id = none := by
          rcases hx : (processEvents (orc st.num_rounds).order
              (orc st.num_rounds).events st).finished_id with _ | w
          · rfl
          · exact absurd (hfd w hx) hdone
        refine ih _ st' ?_ ?_ ?_ h
        · rw [adv_pasms, pe_pasms]
          exact hpasms
        · rw [adv_workers_length, pe_workers_length]
          exact hlen
        · rw [adv_finished]
          exact hfid1

/-- A worker whose bounded check is unsat with a core containing its own
cube asserts the negated core conjunction into its own context and
returns without touching the race state. -/
theorem wt_cube_excludes (i : Nat) (out : CheckOutcome) (cl : Expr)
    (st : CallState) (hi : i < st.workers.length)
    (hk : st.num_rounds > 0) (hr : out.r = .l_false) (hin : cl ∈ out.core) :
    (worker_thread i (.normal out (some cl)) st).finished_id = st.finished_id ∧
    (worker_thread i (.normal out (some cl)) st).result = st.result ∧
    (worker_thread i (.normal out (some cl)) st).done = st.done ∧
    (getW (worker_thread i (.normal out (some cl)) st) i).asserted =
      (getW st i).asserted ++ [mk_not (mk_and out.core)] := by
  have hcond : out.r = .l_false ∧
      cubeInCore (if st.num_rounds > 0 then some cl else none) out.core = true := by
    refine ⟨hr, ?_⟩
    rw [if_pos hk]
    simp [cubeInCore, hin]
  have hnot : ¬(out.r = .l_undef ∧ st.max_conflicts ≤ out.num_conflicts) := by
    intro hc
    rw [hr] at hc
    cases hc.1
  have he : eligible st.max_conflicts st.num_rounds (.normal out (some cl)) = false := by
    simp only [eligible, decide_eq_false_iff_not]
    intro hc
    exact hc.2 hcond
  obtain ⟨a, b, c⟩ := wt_ineligible_frame i out (some cl) st he
  refine ⟨a, b, c, ?_⟩
  simp only [worker_thread, updCheck]
  rw [if_neg hnot, if_pos hcond]
  rw [getW_setW _ i _ (by simp [setW, hi])]
  show (getW (setW st i _) i).asserted ++ [mk_not (mk_and out.core)] = _
  rw [getW_setW st i _ hi]

/-- Unfolded step rule for `RoundReach`: the round data may be supplied
through an equation on the oracle, keeping the step application
syntactic. -/
theorem roundreach_step_rd (orc : Nat → Round) (st0 st : CallState) (rd : Round)
    (h : RoundReach orc st0 st) (hrd : orc st.num_rounds = rd)
    (hdone : (processEvents rd.order rd.events st).done = false) :
    RoundReach orc st0 (advance (processEvents rd.order rd.events st)) := by
  rw [← hrd]
  rw [← hrd] at hdone
  exact RoundReach.step st h hdone

/-- Internalization only appends: a literal already in the log stays. -/
theorem internalize_mono :
    ∀ (pend : List Expr) (log : List SLit) (e : Expr),
      e ∈ log.map lit_expr → e ∈ (internalize log pend).map lit_expr := by
  intro pend
  induction pend with
  | nil => intro log e h; exact h
  | cons a rest ih =>
      intro log e h
      show e ∈ (internalize
        (if a ∈ log.map lit_expr then log else log ++ [⟨a, false⟩]) rest).map lit_expr
      apply ih
      split
      · exact h
      · rw [List.map_append]
        exact List.mem_append_left _ h

/-- After internalization, every formula of the pending queue has its
literal in the assigned-literal log. -/
theorem internalize_covers :
    ∀ (pend : List Expr) (log : List SLit) (e : Expr),
      e ∈ pend → e ∈ (internalize log pend).map lit_expr := by
  intro pend
  induction pend with
  | nil => intro log e h; cases h
  | cons a rest ih =>
      intro log e h
      rcases List.mem_cons.mp h with h | h
      · subst h
        show e ∈ (internalize
          (if e ∈ log.map lit_expr then log else log ++ [⟨e, false⟩]) rest).map lit_expr
        apply internalize_mono
        split
        · assumption
        · rw [List.map_append]
          refine List.mem_append_right _ ?_
          show e ∈ [lit_expr ⟨e, false⟩]
          simp [lit_expr]
      · show e ∈ (internalize
          (if a ∈ log.map lit_expr then log else log ++ [⟨a, false⟩]) rest).map lit_expr
        exact ih _ e h

/-- The assigned-literal log after a worker's check: the previous log,
extended first by internalization of the formulas asserted since the
last check, then by the newly derived literals. -/
theorem wt_log_self (i : Nat) (out : CheckOutcome) (cc : Option Expr)
    (st : CallState) (h : i < st.workers.length) :
    (getW (worker_thread i (.normal out cc) st) i).assigned_literals =
      internalize (getW st i).assigned_literals
        ((getW st i).asserted.drop (getW st i).internalized) ++ out.new_lits := by
  simp only [worker_thread, updCheck, tryClaim]
  repeat' split
  all_goals
    simp [cancelOthers, setW, getW, List.getD_eq_getElem?_getD,
      List.getElem?_set_self, List.getElem?_mapIdx, h, List.length_set]

/-- Normal events never touch the exception-capture fields. -/
theorem wt_ex_normal (i : Nat) (out : CheckOutcome) (cc : Option Expr)
    (st : CallState) :
    (worker_thread i (.normal out cc) st).ex_msg = st.ex_msg ∧
    (worker_thread i (.normal out cc) st).ex_kind = st.ex_kind ∧
    (worker_thread i (.normal out cc) st).error_code = st.error_code := by
  simp only [worker_thread, updCheck, tryClaim]
  repeat' split
  all_goals simp [cancelOthers, setW]

/-- One worker thread preserves the exception-capture invariant. -/
theorem wt_excinv (orc : Nat → Round) (r i : Nat) (st : CallState)
    (hmem : i ∈ (orc r).order) (h : ExcInv orc st) :
    ExcInv orc (worker_thread i ((orc r).events i) st) := by
  cases hev : (orc r).events i with
  | z3_error code =>
      intro _ _
      left
      exact ⟨rfl, r, i, hmem, hev⟩
  | z3_exception msg =>
      intro _ _
      right
      exact ⟨rfl, r, i, hmem, hev⟩
  | normal out cc =>
      intro hfid hdone
      obtain ⟨e1, e2, e3⟩ := wt_ex_normal i out cc st
      rcases hf : st.finished_id with _ | w0
      · by_cases he : eligible st.max_conflicts st.num_rounds (.normal out cc) = true
        · obtain ⟨a, _, _⟩ := wt_eligible_claims i out cc st he hf
          rw [a] at hfid
          cases hfid
        · obtain ⟨a, _, c⟩ :=
            wt_ineligible_frame i out cc st (Bool.eq_false_iff.mpr he)
          rw [c] at hdone
          have hcap := h hf hdone
          rcases hcap with ⟨k1, r', i', hm', he'⟩ | ⟨k1, r', i', hm', he'⟩
          · left
            rw [e2, e3]
            exact ⟨k1, r', i', hm', he'⟩
          · right
            rw [e1, e2]
            exact ⟨k1, r', i', hm', he'⟩
      · obtain ⟨a, _, _⟩ := wt_claimed_frame i out cc st w0 hf
        rw [a] at hfid
        cases hfid

/-- One round's thread executions preserve the exception-capture
invariant. -/
theorem pe_excinv (orc : Nat → Round) (r : Nat) :
    ∀ l : List Nat, (∀ i ∈ l, i ∈ (orc r).order) → ∀ st : CallState,
      ExcInv orc st → ExcInv orc (processEvents l (orc r).events st) := by
  intro l
  induction l with
  | nil => intro _ st h; exact h
  | cons j rest ih =>
      intro hmem st h
      rw [processEvents_cons]
      exact ih (fun i hi => hmem i (List.mem_cons_of_mem _ hi)) _
        (wt_excinv orc r j st (hmem j (List.mem_cons_self _ _)) h)

theorem adv_excinv (orc : Nat → Round) (st : CallState)
    (h : ExcInv orc st) : ExcInv orc (advance st) := h

/-- A completed round loop preserves the exception-capture invariant and
ends with the finished flag set. -/
theorem rr_excinv (orc : Nat → Round) :
    ∀ (fuel : Nat) (st st' : CallState), ExcInv orc st →
      runRounds fuel orc st = some st' →
      ExcInv orc st' ∧ st'.done = true := by
  intro fuel
  induction fuel with
  | zero => intro st st' _ h; cases h
  | succ fuel ih =>
      intro st st' hexc h
      rw [runRounds] at h
      split at h
      · rename_i hdone
        injection h with h2
        rw [← h2]
        exact ⟨pe_excinv orc st.num_rounds (orc st.num_rounds).order
          (fun i hi => hi) st hexc, hdone⟩
      · exact ih _ st' (adv_excinv orc _ (pe_excinv orc st.num_rounds
          (orc st.num_rounds).order (fun i hi => hi) st hexc)) h

/-- With a recorded winner, the epilogue returns the shared result. -/
theorem epilogue_ok (st : CallState) (pc : PrimaryCtx) (i : Nat)
    (hf : st.finished_id = some i) :
    (epilogue st pc).2 = .ok st.result := by
  rcases hr : st.result with _ | _ | _ <;>
    rcases hm : (st.workers.getD i default).model_val with _ | mdl <;>
    rw [List.getD_eq_getElem?_getD] at hm <;>
    simp [epilogue, hf, hr, hm]

/-! ### Lemmas about the unit relay -/

theorem insertUnit_mono (acc : Finset Nat × List Expr) (e a : Nat)
    (h : a ∈ acc.1) : a ∈ (insertUnit acc e).1 := by
  unfold insertUnit
  split
  · exact h
  · exact Finset.mem_insert_of_mem h

theorem insertUnit_self (acc : Finset Nat × List Expr) (e : Nat) :
    e ∈ (insertUnit acc e).1 := by
  unfold insertUnit
  split
  · assumption
  · exact Finset.mem_insert_self e acc.1

theorem insertUnit_of_mem (acc : Finset Nat × List Expr) (e : Nat)
    (h : e ∈ acc.1) : insertUnit acc e = acc := by
  unfold insertUnit
  rw [if_pos h]

theorem insertUnit_trail (acc : Finset Nat × List Expr) (e : Nat) :
    ∃ u, (insertUnit acc e).2 = acc.2 ++ u := by
  unfold insertUnit
  split
  · exact ⟨[], (List.append_nil _).symm⟩
  · exact ⟨[e], rfl⟩

theorem insertUnit_inv (acc : Finset Nat × List Expr) (e : Nat)
    (h : UnitInv acc) : UnitInv (insertUnit acc e) := by
  unfold insertUnit
  split
  · exact h
  · rename_i he
    constructor
    · intro x
      simp only [Finset.mem_insert, List.mem_append, List.mem_singleton, h.1 x]
      tauto
    · have het : e ∉ acc.2 := fun hc => he ((h.1 e).mpr hc)
      simp [List.nodup_append, h.2, het]

theorem foldUnits_mono (es : List Expr) :
    ∀ (acc : Finset Nat × List Expr) (a : Nat), a ∈ acc.1 →
      a ∈ (es.foldl insertUnit acc).1 := by
  induction es with
  | nil => intro acc a h; exact h
  | cons e es ih => intro acc a h; exact ih _ a (insertUnit_mono acc e a h)

theorem foldUnits_processed (es : List Expr) :
    ∀ (acc : Finset Nat × List Expr) (e : Nat), e ∈ es →
      e ∈ (es.foldl insertUnit acc).1 := by
  induction es with
  | nil => intro acc e h; cases h
  | cons a es ih =>
      intro acc e h
      rcases List.mem_cons.mp h with h | h
      · subst h
        exact foldUnits_mono es _ e (insertUnit_self acc e)
      · exact ih _ e h

theorem foldUnits_trail (es : List Expr) :
    ∀ acc : Finset Nat × List Expr, ∃ u, (es.foldl insertUnit acc).2 = acc.2 ++ u := by
  induction es with
  | nil => intro acc; exact ⟨[], (List.append_nil _).symm⟩
  | cons e es ih =>
      intro acc
      obtain ⟨u1, hu1⟩ := insertUnit_trail acc e
      obtain ⟨u2, hu2⟩ := ih (insertUnit acc e)
      exact ⟨u1 ++ u2, by rw [List.foldl_cons, hu2, hu1, List.append_assoc]⟩

theorem foldUnits_inv (es : List Expr) :
    ∀ acc : Finset Nat × List Expr, UnitInv acc →
      UnitInv (es.foldl insertUnit acc) := by
  induction es with
  | nil => intro acc h; exact h
  | cons e es ih => intro acc h; exact ih _ (insertUnit_inv acc e h)

theorem foldUnits_noop (es : List Expr) :
    ∀ acc : Finset Nat × List Expr, (∀ e ∈ es, e ∈ acc.1) →
      es.foldl insertUnit acc = acc := by
  induction es with
  | nil => intro acc _; rfl
  | cons e es ih =>
      intro acc h
      rw [List.foldl_cons, insertUnit_of_mem acc e (h e (List.mem_cons_self _ _))]
      exact ih acc (fun x hx => h x (List.mem_cons_of_mem e hx))

theorem collectAll_mono (ws : List WorkerCtx) :
    ∀ (lims : List Nat) (acc : Finset Nat × List Expr) (a : Nat),
      a ∈ acc.1 → a ∈ (collectAll ws lims acc).1 := by
  induction ws with
  | nil => intro lims acc a h; exact h
  | cons w ws ih =>
      intro lims acc a h
      cases lims with
      | nil => exact h
      | cons lim lims =>
          exact ih lims _ a (foldUnits_mono _ acc a h)

theorem collectAll_trail (ws : List WorkerCtx) :
    ∀ (lims : List Nat) (acc : Finset Nat × List Expr),
      ∃ u, (collectAll ws lims acc).2 = acc.2 ++ u := by
  induction ws with
  | nil => intro lims acc; exact ⟨[], (List.append_nil _).symm⟩
  | cons w ws ih =>
      intro lims acc
      cases lims with
      | nil => exact ⟨[], (List.append_nil _).symm⟩
      | cons lim lims =>
          obtain ⟨u1, hu1⟩ := foldUnits_trail
            ((w.assigned_literals.drop lim).map lit_expr) acc
          obtain ⟨u2, hu2⟩ := ih lims (collectFromLog lim w.assigned_literals acc)
          refine ⟨u1 ++ u2, ?_⟩
          show (collectAll ws lims (collectFromLog lim w.assigned_literals acc)).2 = _
          rw [hu2]
          unfold collectFromLog
          rw [hu1, List.append_assoc]

theorem collectAll_inv (ws : List WorkerCtx) :
    ∀ (lims : List Nat) (acc : Finset Nat × List Expr),
      UnitInv acc → UnitInv (collectAll ws lims acc) := by
  induction ws with
  | nil => intro lims acc h; exact h
  | cons w ws ih =>
      intro lims acc h
      cases lims with
      | nil => exact h
      | cons lim lims => exact ih lims _ (foldUnits_inv _ acc h)

theorem collectAll_processed (ws : List WorkerCtx) :
    ∀ (lims : List Nat) (acc : Finset Nat × List Expr)
      (p : WorkerCtx × Nat), p ∈ ws.zip lims →
      ∀ e ∈ (p.1.assigned_literals.drop p.2).map lit_expr,
        e ∈ (collectAll ws lims acc).1 := by
  induction ws with
  | nil => intro lims acc p hp; cases hp
  | cons w ws ih =>
      intro lims acc p hp e he
      cases lims with
      | nil => cases hp
      | cons lim lims =>
          rcases List.mem_cons.mp hp with h | h
          · subst h
            exact collectAll_mono ws lims _ e (foldUnits_processed _ acc e he)
          · exact ih lims _ p h e he

theorem collectAll_noop (ws : List WorkerCtx) :
    ∀ (lims : List Nat) (acc : Finset Nat × List Expr),
      (∀ p ∈ ws.zip lims, ∀ e ∈ (p.1.assigned_literals.drop p.2).map lit_expr,
        e ∈ acc.1) →
      collectAll ws lims acc = acc := by
  induction ws with
  | nil => intro lims acc _; cases lims <;> rfl
  | cons w ws ih =>
      intro lims acc h
      cases lims with
      | nil => rfl
      | cons lim lims =>
          have h0 : collectFromLog lim w.assigned_literals acc = acc :=
            foldUnits_noop _ acc
              (fun e he => h (w, lim) (by simp) e he)
          show collectAll ws lims (collectFromLog lim w.assigned_literals acc) = acc
          rw [h0]
          exact ih lims acc (fun p hp => h p (List.mem_cons_of_mem _ hp))

theorem relayWorkers_logs (trail : List Expr) (sz : Nat) :
    ∀ (ws : List WorkerCtx) (lims : List Nat),
      (relayWorkers trail sz ws lims).map WorkerCtx.assigned_literals =
        ws.map WorkerCtx.assigned_literals := by
  intro ws
  induction ws with
  | nil => intro lims; cases lims <;> rfl
  | cons w ws ih =>
      intro lims
      cases lims with
      | nil => rfl
      | cons lim lims =>
          show _ :: (relayWorkers trail sz ws lims).map WorkerCtx.assigned_literals = _
          rw [ih lims]
          rfl

theorem collectAll_congr_logs :
    ∀ (ws ws' : List WorkerCtx) (lims : List Nat) (acc : Finset Nat × List Expr),
      ws.map WorkerCtx.assigned_literals = ws'.map WorkerCtx.assigned_literals →
      collectAll ws lims acc = collectAll ws' lims acc := by
  intro ws
  induction ws with
  | nil =>
      intro ws' lims acc h
      cases ws' with
      | nil => rfl
      | cons w' ws' => cases h
  | cons w ws ih =>
      intro ws' lims acc h
      cases ws' with
      | nil => cases h
      | cons w' ws' =>
          simp only [List.map_cons] at h
          injection h with h1 h2
          cases lims with
          | nil => rfl
          | cons lim lims =>
              show collectAll ws lims (collectFromLog lim w.assigned_literals acc) =
                collectAll ws' lims (collectFromLog lim w'.assigned_literals acc)
              rw [h1, ih ws' lims _ h2]

theorem relayWorkers_asserted (trail : List Expr) (sz : Nat) :
    ∀ (ws : List WorkerCtx) (L : Nat),
      ∀ p ∈ (relayWorkers trail sz ws (List.replicate ws.length L)).zip ws,
        p.1.asserted = p.2.asserted ++ (trail.drop L).take (sz - L) := by
  intro ws
  induction ws with
  | nil => intro L p hp; cases hp
  | cons w ws ih =>
      intro L p hp
      rcases List.mem_cons.mp hp with h | h
      · subst h
        rfl
      · exact ih L p h

theorem zip_map_const_mem {α β : Type} (L : β) :
    ∀ (ws : List α) (lims : List Nat) (p : α × β),
      p ∈ ws.zip (lims.map (fun _ => L)) →
      ∃ q ∈ ws.zip lims, q.1 = p.1 ∧ p.2 = L := by
  intro ws
  induction ws with
  | nil => intro lims p hp; cases hp
  | cons w ws ih =>
      intro lims p hp
      cases lims with
      | nil => cases hp
      | cons lim lims =>
          rcases List.mem_cons.mp hp with h | h
          · exact ⟨(w, lim), by simp, by rw [h], by rw [h]⟩
          · obtain ⟨q, hq, h1, h2⟩ := ih lims p h
            exact ⟨q, List.mem_cons_of_mem _ hq, h1, h2⟩

/-! ## Claims -/

/-- Claim C1, counterexample.  The claim says the call either returns a
definitive result (sat or unsat) or raises an error.  But a worker whose
check returns undef *without* exhausting its conflict budget (line 122
only returns early when `m_num_conflicts >= max_conflicts`) falls
through to the claim block and wins with `l_undef`: the call returns the
non-definitive `l_undef` with no exception raised. -/
theorem claim_C1_counterexample :
    parallelOperator 1 0 100 [] orcC1 1 ⟨0, none, []⟩ =
      some (⟨0, none, []⟩, .ok .l_undef) ∧
    (.l_undef : Lbool) ≠ .l_true ∧ (.l_undef : Lbool) ≠ .l_false :=
  ⟨rfl, by decide, by decide⟩

/-- Claim C1, amended: every completed call either returns the winning
worker's recorded result — which may also be `l_undef`, when a check
returned undef without exhausting its conflict budget — or, when no
winner was recorded, raises exactly one error reflecting the captured
fault: a `z3_error` carrying the captured error code for an internal
fault, otherwise a default exception carrying the captured message; in
that case the capture corresponds to an exception actually thrown by
some spawned worker, and no non-winner state escapes without an
exception. -/
theorem claim_C1 (n base_seed b fuel : Nat) (asms : List Expr)
    (orc : Nat → Round) (st : CallState) (pc : PrimaryCtx)
    (hrun : runRounds fuel orc (initState n base_seed b asms) = some st) :
    (∃ i, st.finished_id = some i ∧ (epilogue st pc).2 = .ok st.result) ∨
    (st.finished_id = none ∧ st.done = true ∧
      ((st.ex_kind = .ERROR_EX ∧
        (epilogue st pc).2 = .error (.z3Error st.error_code) ∧
        ∃ r i, i ∈ (orc r).order ∧ (orc r).events i = .z3_error st.error_code) ∨
       (st.ex_kind = .DEFAULT_EX ∧
        (epilogue st pc).2 = .error (.defaultExc st.ex_msg) ∧
        ∃ r i, i ∈ (orc r).order ∧
          (orc r).events i = .z3_exception st.ex_msg))) := by
  have hinit : ExcInv orc (initState n base_seed b asms) := by
    intro _ hdone
    exact absurd hdone (by simp [initState])
  obtain ⟨hexc, hdone⟩ := rr_excinv orc fuel _ st hinit hrun
  rcases hf : st.finished_id with _ | i
  · right
    refine ⟨rfl, hdone, ?_⟩
    rcases hexc hf hdone with ⟨k1, r, i, hm, he⟩ | ⟨k1, r, i, hm, he⟩
    · left
      exact ⟨k1, by simp [epilogue, hf, k1], r, i, hm, he⟩
    · right
      exact ⟨k1, by simp [epilogue, hf, k1], r, i, hm, he⟩
  · exact Or.inl ⟨i, rfl, epilogue_ok st pc i hf⟩

/-- Claim C1 (amended), witness: a one-worker call whose check throws
`z3_error 42`; the call ends with no winner and surfaces
`z3_error(42)`. -/
theorem claim_C1_witness :
    (epilogue stC1w (⟨0, none, []⟩ : PrimaryCtx)).2 = .error (.z3Error 42) := by
  have H := claim_C1 1 0 100 1 [] orcC1b stC1w ⟨0, none, []⟩ rfl
  rcases H with ⟨i, hi, _⟩ | ⟨_, _, hk⟩
  · rw [show stC1w.finished_id = none from rfl] at hi
    cases hi
  · rcases hk with ⟨_, h2, _⟩ | ⟨hbad, _, _⟩
    · exact h2
    · exact absurd hbad (by decide)

/-- Claim C2, counterexample.  The claim says a worker writes the
classified payload into the exception capture *only if no capture exists
yet*, so that the first write wins and subsequent failures are dropped
without overwriting the first.  On the code, the catch blocks assign the
capture fields unconditionally: when worker 0 fails with message `a` and
worker 1 then fails with message `b` in the same round, the surviving
capture is `b`, i.e. the second failure overwrote the first. -/
theorem claim_C2_counterexample :
    (worker_thread 0 (evsC2 0) (initState 2 0 100 [])).ex_msg = "a" ∧
    (processEvents [0, 1] evsC2 (initState 2 0 100 [])).ex_msg = "b" ∧
    "b" ≠ "a" :=
  ⟨rfl, rfl, by decide⟩

/-- Claim C2, amended: when a worker's solving call raises a recoverable
or internal error, the worker writes the classified payload (kind plus
message, or kind plus code) into the exception capture *unconditionally*,
overwriting any capture already present; the capture surviving the call
is the last one written, not the first, and it always sets the `done`
flag. -/
theorem claim_C2 (st : CallState) (i : Nat) (code : Nat) (msg : String) :
    ((worker_thread i (.z3_error code) st).error_code = code ∧
     (worker_thread i (.z3_error code) st).ex_kind = .ERROR_EX ∧
     (worker_thread i (.z3_error code) st).done = true) ∧
    ((worker_thread i (.z3_exception msg) st).ex_msg = msg ∧
     (worker_thread i (.z3_exception msg) st).ex_kind = .DEFAULT_EX ∧
     (worker_thread i (.z3_exception msg) st).done = true) :=
  ⟨⟨rfl, rfl, rfl⟩, ⟨rfl, rfl, rfl⟩⟩

/-- Claim C3: for every call and every round, even when multiple workers
finish the same round with a definitive result, the race state records
exactly one winner.  Starting from an unclaimed state, the recorded
winner after the round is exactly the first worker in the serialisation
order whose event reaches the claim block, and the shared result is that
worker's check result with the finished flag set; and every worker
arriving with a definitive result after a winner was recorded returns
without modifying the shared result, `finished_id`, or the `done`
flag. -/
theorem claim_C3 (st : CallState) (order : List Nat) (evs : Nat → WorkerEvent)
    (h : st.finished_id = none) :
    ((processEvents order evs st).finished_id =
        firstEligibleWinner st.max_conflicts st.num_rounds order evs ∧
      ∀ i, firstEligibleWinner st.max_conflicts st.num_rounds order evs = some i →
        ∃ out cc, evs i = .normal out cc ∧
          (processEvents order evs st).result = out.r ∧
          (processEvents order evs st).done = true) ∧
    (∀ (st2 : CallState) (w i : Nat) (out : CheckOutcome) (cc : Option Expr),
      st2.finished_id = some w →
        (worker_thread i (.normal out cc) st2).finished_id = some w ∧
        (worker_thread i (.normal out cc) st2).result = st2.result ∧
        (worker_thread i (.normal out cc) st2).done = st2.done) := by
  refine ⟨pe_race order evs st h, ?_⟩
  intro st2 w i out cc h2
  exact wt_claimed_frame i out cc st2 w h2

/-- Claim C3, witness: three workers all return sat in the same round;
the race state records worker 0, the first in the serialisation order,
as the only winner. -/
theorem claim_C3_witness :
    (processEvents [0, 1, 2] evsC3 (initState 3 0 100 [])).finished_id = some 0 :=
  ((claim_C3 (initState 3 0 100 []) [0, 1, 2] evsC3 rfl).1.1).trans (by rfl)

set_option maxHeartbeats 2000000 in
/-- Claim C4, counterexample.  The claim says every fact newly present
in worker `i`'s assigned-literal log at the end of a winnerless round is
added to the global unit trail by the relay.  Facts the worker newly
*derives* are indeed collected: the relay's own assertions are assigned
at base level during the next check and re-enter the log, so the log
covers the trail and derivations sit at positions at or beyond
`unit_lim[i]`.  But the same feedback applies to the worker's private
core-exclusion assertion (line 127): its literal enters the log at the
next check *below* the new `unit_lim[i]` whenever other workers
contributed more trail facts, and is then never read by the collection
loop.  In this reachable run, worker 0 asserts `¬(8 ∧ 7)` in round 1;
during round 2 the exclusion's literal enters its log at position 1
while `unit_lim[0] = 2`, and it never reaches the trail. -/
theorem claim_C4_counterexample :
    RoundReach orcC4 (initState 2 0 100 [8]) stC4 ∧
    (getW (processEvents rdC4b.order rdC4b.events
        (advance (processEvents rdC4a.order rdC4a.events
          (initState 2 0 100 [8])))) 0).assigned_literals = [⟨10, false⟩] ∧
    (getW (processEvents rdC4c.order rdC4c.events
        (advance (processEvents rdC4b.order rdC4b.events
          (advance (processEvents rdC4a.order rdC4a.events
            (initState 2 0 100 [8])))))) 0).assigned_literals =
      [⟨10, false⟩, ⟨mk_not (mk_and [8, 7]), false⟩, ⟨11, false⟩] ∧
    stC4.unit_trail = [10, 11] ∧
    (mk_not (mk_and [8, 7]) ∈ stC4.unit_trail → False) := by
  refine ⟨?_, rfl, rfl, rfl, by decide⟩
  have h0 : (initState 2 0 100 [8]).num_rounds = 0 := rfl
  have r1 := roundreach_step_rd orcC4 _ _ rdC4a RoundReach.refl
    (by rw [h0]; rfl) (by decide)
  have r2 := roundreach_step_rd orcC4 _ _ rdC4b r1
    (by rw [adv_num_rounds, pe_num_rounds, h0]; rfl) (by decide)
  exact roundreach_step_rd orcC4 _ _ rdC4c r2
    (by rw [adv_num_rounds, pe_num_rounds, adv_num_rounds, pe_num_rounds, h0]; rfl)
    (by decide)

/-- Claim C4, amended: the formulas asserted into a worker between two
checks are internalized at the next check, their literals entering its
assigned-literal log, so at every relay the log of each worker covers
the whole trail and `unit_lim[i] = |trail| ≤ |log_i|` — hence every fact
the worker newly derived that round lies at a position at or beyond
`unit_lim[i]`.  The relay appends to the trail (deduplicated) exactly
the facts at log positions at or beyond `unit_lim[i]`, asserts exactly
the newly appended trail suffix into every worker, and restores the
offset invariant; since the trail has no duplicates and later relays
assert only later segments, no trail fact is asserted into the same
worker twice.  Not covered — as the counterexample shows — is a fact
entering the log through the worker's own core-exclusion assertion,
whose literal can be internalized below `unit_lim[i]` and is then never
relayed. -/
theorem claim_C4 (st : CallState)
    (hInv : UnitInv (st.unit_set, st.unit_trail))
    (hLim : st.unit_lim = List.replicate st.workers.length st.unit_trail.length)
    (hCover : ∀ w ∈ st.workers, ∀ t ∈ st.unit_trail,
      t ∈ w.assigned_literals.map lit_expr) :
    (∀ w ∈ st.workers, st.unit_trail.length ≤ w.assigned_literals.length) ∧
    (∀ (i : Nat) (out : CheckOutcome) (cc : Option Expr) (e : Expr),
      i < st.workers.length →
      e ∈ (getW st i).asserted.drop (getW st i).internalized →
      e ∈ ((getW (worker_thread i (.normal out cc) st) i).assigned_literals.map
        lit_expr)) ∧
    ∃ u, (collect_units st).unit_trail = st.unit_trail ++ u ∧
      (collect_units st).unit_trail.Nodup ∧
      (∀ p ∈ st.workers.zip st.unit_lim,
        ∀ e ∈ (p.1.assigned_literals.drop p.2).map lit_expr,
          e ∈ (collect_units st).unit_trail) ∧
      (∀ p ∈ (collect_units st).workers.zip st.workers,
        p.1.asserted = p.2.asserted ++ u) ∧
      (collect_units st).unit_lim =
        List.replicate st.workers.length (collect_units st).unit_trail.length := by
  refine ⟨?_, ?_, ?_⟩
  · intro w hw
    have h1 : st.unit_trail.toFinset.card = st.unit_trail.length :=
      List.toFinset_card_of_nodup hInv.2
    have h2 : st.unit_trail.toFinset ⊆ (w.assigned_literals.map lit_expr).toFinset := by
      intro t ht
      rw [List.mem_toFinset] at ht
      rw [List.mem_toFinset]
      exact hCover w hw t ht
    calc st.unit_trail.length = st.unit_trail.toFinset.card := h1.symm
      _ ≤ (w.assigned_literals.map lit_expr).toFinset.card := Finset.card_le_card h2
      _ ≤ (w.assigned_literals.map lit_expr).length := List.toFinset_card_le _
      _ = w.assigned_literals.length := List.length_map ..
  · intro i out cc e hi he
    rw [wt_log_self i out cc st hi, List.map_append]
    exact List.mem_append_left _ (internalize_covers _ _ e he)
  · have hinv1 : UnitInv (collectAll st.workers st.unit_lim (st.unit_set, st.unit_trail)) :=
      collectAll_inv _ _ _ hInv
    set acc1 := collectAll st.workers st.unit_lim (st.unit_set, st.unit_trail) with hacc1
    obtain ⟨u, hu⟩ : ∃ u, acc1.2 = st.unit_trail ++ u := collectAll_trail _ _ _
    refine ⟨u, hu, hinv1.2, ?_, ?_, ?_⟩
    · intro p hp e he
      have hset : e ∈ acc1.1 := collectAll_processed st.workers st.unit_lim _ p hp e he
      exact (hinv1.1 e).mp hset
    · intro p hp
      have hq := relayWorkers_asserted acc1.2 acc1.2.length st.workers
        st.unit_trail.length p ?_
      · rw [hq, hu, List.drop_left]
        congr 1
        simp
      · rw [← hLim]
        exact hp
    · show st.unit_lim.map (fun _ => acc1.2.length) =
        List.replicate st.workers.length acc1.2.length
      rw [hLim, List.map_replicate]

/-- Claim C4 (amended), witness: the theorem applied to a concrete
two-worker state with an empty trail and one pending literal per
worker. -/
theorem claim_C4_witness :
    (∀ w ∈ stC4w.workers, stC4w.unit_trail.length ≤ w.assigned_literals.length) ∧
    (∀ (i : Nat) (out : CheckOutcome) (cc : Option Expr) (e : Expr),
      i < stC4w.workers.length →
      e ∈ (getW stC4w i).asserted.drop (getW stC4w i).internalized →
      e ∈ ((getW (worker_thread i (.normal out cc) stC4w) i).assigned_literals.map
        lit_expr)) ∧
    ∃ u, (collect_units stC4w).unit_trail = stC4w.unit_trail ++ u ∧
      (collect_units stC4w).unit_trail.Nodup ∧
      (∀ p ∈ stC4w.workers.zip stC4w.unit_lim,
        ∀ e ∈ (p.1.assigned_literals.drop p.2).map lit_expr,
          e ∈ (collect_units stC4w).unit_trail) ∧
      (∀ p ∈ (collect_units stC4w).workers.zip stC4w.workers,
        p.1.asserted = p.2.asserted ++ u) ∧
      (collect_units stC4w).unit_lim =
        List.replicate stC4w.workers.length (collect_units stC4w).unit_trail.length :=
  claim_C4 stC4w ⟨fun x => by simp [stC4w, initState], by simp [stC4w, initState]⟩
    (by simp [stC4w, initState])
    (fun w _ t ht => by simp [stC4w, initState] at ht)

/-- Claim C5: a worker whose bounded check returns unsat with a core
containing its own speculative cube literal asserts the negation of the
conjunction of that core into its own private context and returns
without claiming the race state; consequently, under the collaborator
contract that every unsat core is contained in the assumptions passed to
`check`, the unsat core a completed call returns is contained in the
caller's assumptions and never depends on an internally introduced cube
literal. -/
theorem claim_C5 (n base_seed b fuel : Nat) (asms : List Expr)
    (orc : Nat → Round) (st : CallState) (pc : PrimaryCtx)
    (hwf : OracleWF n asms orc)
    (hrun : runRounds fuel orc (initState n base_seed b asms) = some st) :
    (∀ (st2 : CallState) (i : Nat) (out : CheckOutcome) (cl : Expr),
      i < st2.workers.length → st2.num_rounds > 0 → out.r = .l_false →
      cl ∈ out.core →
        (worker_thread i (.normal out (some cl)) st2).finished_id = st2.finished_id ∧
        (worker_thread i (.normal out (some cl)) st2).result = st2.result ∧
        (worker_thread i (.normal out (some cl)) st2).done = st2.done ∧
        (getW (worker_thread i (.normal out (some cl)) st2) i).asserted =
          (getW st2 i).asserted ++ [mk_not (mk_and out.core)]) ∧
    ((epilogue st pc).2 = .ok .l_false →
      ∀ e ∈ (epilogue st pc).1.m_unsat_core,
        e ∈ pc.m_unsat_core ∨ e ∈ asms) := by
  refine ⟨fun st2 i out cl hi hk hr hin =>
    wt_cube_excludes i out cl st2 hi hk hr hin, ?_⟩
  intro hok e he
  obtain ⟨hCore, hbound⟩ := rr_C5 n asms orc hwf fuel _ st
    (by simp [initState]) (by simp [initState]) rfl hrun
  have hpasms : st.pasms = List.replicate n asms := by
    rw [rr_pasms fuel orc _ st hrun]
    rfl
  rcases hf : st.finished_id with _ | fid
  · simp [epilogue, hf] at hok
  · rcases hr : st.result with _ | _ | _
    · have hcore := hCore fid hf hr
      have hm : (epilogue st pc).1.m_unsat_core =
          pc.m_unsat_core ++ (st.workers.getD fid default).last_core := by
        simp [epilogue, hf, hr]
      rw [hm] at he
      rcases List.mem_append.mp he with h | h
      · exact Or.inl h
      · right
        have hmem := hcore e h
        rw [hpasms, List.getD_eq_getElem?_getD,
          List.getElem?_replicate_of_lt (hbound fid hf)] at hmem
        exact hmem
    · simp [epilogue, hf, hr] at hok
    · rcases hmv : (st.workers.getD fid default).model_val with _ | mdl <;>
        rw [List.getD_eq_getElem?_getD] at hmv <;>
        simp [epilogue, hf, hr, hmv] at hok

/-- Claim C5, witness: the theorem applied to a one-worker call on
assumption `3` whose check reports unsat with core `[3]`; the local
conjunct is instantiated at a round-1 state with cube `9` and core
`[3, 9]`. -/
theorem claim_C5_witness :
    ((worker_thread 0 (.normal outC5b (some 9)) stC5b).finished_id = stC5b.finished_id ∧
     (worker_thread 0 (.normal outC5b (some 9)) stC5b).result = stC5b.result ∧
     (worker_thread 0 (.normal outC5b (some 9)) stC5b).done = stC5b.done ∧
     (getW (worker_thread 0 (.normal outC5b (some 9)) stC5b) 0).asserted =
       (getW stC5b 0).asserted ++ [mk_not (mk_and outC5b.core)]) ∧
    ((3 : Expr) ∈ (⟨0, none, []⟩ : PrimaryCtx).m_unsat_core ∨ (3 : Expr) ∈ [3]) := by
  have H := claim_C5 1 0 9 1 [3] orcC5 stC5 ⟨0, none, []⟩
    (fun r => ⟨⟨by show ([0] : List Nat).Nodup; decide,
      by show ∀ i ∈ ([0] : List Nat), i < 1; decide⟩, fun i out cc hev => by
      injection hev with h1 h2
      rw [← h1]
      exact fun x hx => List.mem_append_left _ hx⟩)
    rfl
  exact ⟨H.1 stC5b 0 outC5b 9 (by decide) (by decide) rfl (by decide),
    H.2 rfl 3 (by decide)⟩

/-- Claim C6, counterexample.  The claim says round `k` limits every
worker to exactly `base * 2 ^ k` conflicts.  `max_conflicts` is an
`unsigned`, so the doubling wraps modulo `2^32`: with base budget
`2^31`, after one winnerless round the loop reaches round 1 with a
budget of `0`, not `2^31 * 2^1`, and the worker's conflict limit in
round 1 is `0`. -/
theorem claim_C6_counterexample :
    RoundReach orcC6 (initState 1 0 (2 ^ 31) [])
      (advance (processEvents [0] evsC6 (initState 1 0 (2 ^ 31) []))) ∧
    (advance (processEvents [0] evsC6 (initState 1 0 (2 ^ 31) []))).num_rounds = 1 ∧
    (getW (worker_thread 0 (.normal outC6b none)
        (advance (processEvents [0] evsC6 (initState 1 0 (2 ^ 31) [])))) 0).m_max_conflicts
      = 0 ∧
    (0 : Nat) ≠ 2 ^ 31 * 2 ^ 1 := by
  refine ⟨RoundReach.step _ RoundReach.refl (by rfl), rfl, by rfl, by decide⟩

/-- Claim C6, amended: for every call with base effort budget `b` and
every round `k` reached without a winner, the shared budget is
`b * 2 ^ k` reduced modulo `2^32` (the budget is an `unsigned` and the
doubling wraps on overflow), the round counter increments in lockstep,
and every worker's solver is limited in round `k` to exactly that shared
budget. -/
theorem claim_C6 (n base_seed b : Nat) (asms : List Expr) (orc : Nat → Round)
    (st : CallState)
    (h : RoundReach orc (initState n base_seed b asms) st) :
    st.max_conflicts = b * 2 ^ st.num_rounds % w32 ∧
    (∀ i out cc, i < st.workers.length →
      (getW (worker_thread i (.normal out cc) st) i).m_max_conflicts =
        b * 2 ^ st.num_rounds % w32) := by
  have hmc : st.max_conflicts = b * 2 ^ st.num_rounds % w32 := by
    induction h with
    | refl => simp [initState, pow_zero, mul_one]
    | step st1 hreach hdone ih =>
        rw [adv_max_conflicts, adv_num_rounds, pe_max_conflicts, pe_num_rounds,
          ih, Nat.mod_mul_mod, pow_succ, ← mul_assoc]
  refine ⟨hmc, fun i out cc hi => ?_⟩
  rw [wt_param_set i out cc st hi, hmc]

/-- Claim C6 (amended), witness: the theorem applied to the initial
state of a concrete call, giving the round-0 budget `5 * 2^0 % 2^32`. -/
theorem claim_C6_witness :
    (initState 2 0 5 []).max_conflicts = 5 * 2 ^ (initState 2 0 5 []).num_rounds % w32 ∧
    (∀ i out cc, i < (initState 2 0 5 []).workers.length →
      (getW (worker_thread i (.normal out cc) (initState 2 0 5 [])) i).m_max_conflicts =
        5 * 2 ^ (initState 2 0 5 []).num_rounds % w32) :=
  claim_C6 2 0 5 [] orcC6 (initState 2 0 5 []) RoundReach.refl

/-- Claim C7: the global unit trail together with its deduplication set
behaves as a set.  On any state in which the set holds exactly the
trail's members, the trail has no duplicates, and the `unit_lim` offsets
do not exceed the trail length (all invariants of the reachable states),
one unit relay run preserves the coupling invariant — so every fact
appears at most once in the trail — and a second run with no new worker
facts in between leaves the trail length unchanged (idempotence). -/
theorem claim_C7 (st : CallState)
    (hInv : UnitInv (st.unit_set, st.unit_trail))
    (hL : ∀ l ∈ st.unit_lim, l ≤ st.unit_trail.length) :
    UnitInv ((collect_units st).unit_set, (collect_units st).unit_trail) ∧
    (collect_units st).unit_trail.Nodup ∧
    (collect_units (collect_units st)).unit_trail.length =
      (collect_units st).unit_trail.length := by
  have hinv1 : UnitInv (collectAll st.workers st.unit_lim (st.unit_set, st.unit_trail)) :=
    collectAll_inv _ _ _ hInv
  set acc1 := collectAll st.workers st.unit_lim (st.unit_set, st.unit_trail) with hacc1
  refine ⟨hinv1, hinv1.2, ?_⟩
  have hgrow : ∃ u, acc1.2 = st.unit_trail ++ u := collectAll_trail _ _ _
  have hlen : st.unit_trail.length ≤ acc1.2.length := by
    obtain ⟨u, hu⟩ := hgrow
    rw [hu]
    simp
  have hkey : ∀ p ∈ st.workers.zip (st.unit_lim.map (fun _ => acc1.2.length)),
      ∀ e ∈ (p.1.assigned_literals.drop p.2).map lit_expr,
        e ∈ (acc1.1, acc1.2).1 := by
    intro p hp e he
    obtain ⟨q, hq, h1, h2⟩ := zip_map_const_mem acc1.2.length st.workers st.unit_lim p hp
    obtain ⟨qw, ql⟩ := q
    have hql : ql ∈ st.unit_lim := (List.of_mem_zip hq).2
    have hq2 : ql ≤ acc1.2.length := le_trans (hL ql hql) hlen
    have hsub : qw.assigned_literals.drop acc1.2.length ⊆
        (qw.assigned_literals.drop ql).drop (acc1.2.length - ql) := by
      intro a ha
      rw [List.drop_drop]
      have hql2 : ql + (acc1.2.length - ql) = acc1.2.length := by omega
      rw [hql2]
      exact ha
    have he' : e ∈ (qw.assigned_literals.drop ql).map lit_expr := by
      obtain ⟨x, hx, hxe⟩ := List.mem_map.mp he
      rw [← h1] at hx
      rw [h2] at hx
      exact List.mem_map.mpr ⟨x, List.drop_subset _ _ (hsub hx), hxe⟩
    exact collectAll_processed st.workers st.unit_lim _ (qw, ql) hq e he'
  have hstep : (collect_units (collect_units st)).unit_trail =
      (collectAll st.workers (st.unit_lim.map (fun _ => acc1.2.length))
        (acc1.1, acc1.2)).2 := by
    show (collectAll (collect_units st).workers (collect_units st).unit_lim
        ((collect_units st).unit_set, (collect_units st).unit_trail)).2 = _
    rw [collectAll_congr_logs (collect_units st).workers st.workers _ _
      (relayWorkers_logs _ _ st.workers st.unit_lim)]
    rfl
  rw [hstep, collectAll_noop _ _ _ hkey]
  rfl

/-- Claim C7, witness: the theorem applied to a concrete two-worker state
with an empty trail and one fresh literal per worker. -/
theorem claim_C7_witness :
    UnitInv ((collect_units stC7).unit_set, (collect_units stC7).unit_trail) ∧
    (collect_units stC7).unit_trail.Nodup ∧
    (collect_units (collect_units stC7)).unit_trail.length =
      (collect_units stC7).unit_trail.length :=
  claim_C7 stC7 ⟨fun x => by simp [stC7, initState], by simp [stC7, initState]⟩
    (fun l hl => by simp [stC7, initState] at hl; simp [stC7, initState, hl])

/-- Claim C8: a cube is requested and appended only in rounds after the
first, and only to the worker's per-round local copy of its assumptions:
in round 0 the check receives exactly the worker's translated caller
assumptions, in later rounds exactly those assumptions plus the cube;
the persistent translated assumption list `pasms` is unchanged by the
worker thread and by the whole round loop, so no cube persists into any
later round. -/
theorem claim_C8 (st : CallState) (i : Nat) (out : CheckOutcome)
    (cc : Option Expr) (orc : Nat → Round) (fuel : Nat) (st' : CallState)
    (hi : i < st.workers.length)
    (hrun : runRounds fuel orc st = some st') :
    (st.num_rounds = 0 →
      (getW (worker_thread i (.normal out cc) st) i).last_assumptions =
        st.pasms.getD i []) ∧
    (st.num_rounds > 0 →
      (getW (worker_thread i (.normal out cc) st) i).last_assumptions =
        st.pasms.getD i [] ++ cc.toList) ∧
    (worker_thread i (.normal out cc) st).pasms = st.pasms ∧
    st'.pasms = st.pasms := by
  refine ⟨?_, ?_, wt_pasms .., rr_pasms fuel orc st st' hrun⟩
  · intro h0
    rw [wt_lasms i out cc st hi, h0, localAssumptions_round0]
  · intro hpos
    rw [wt_lasms i out cc st hi, localAssumptions_pos _ _ _ hpos]

/-- Claim C8, witness: the theorem applied to a one-worker call with
caller assumption `7` and candidate cube `9`, in round 0. -/
theorem claim_C8_witness :
    (stC8.num_rounds = 0 →
      (getW (worker_thread 0 (.normal outC8 (some 9)) stC8) 0).last_assumptions =
        stC8.pasms.getD 0 []) ∧
    (stC8.num_rounds > 0 →
      (getW (worker_thread 0 (.normal outC8 (some 9)) stC8) 0).last_assumptions =
        stC8.pasms.getD 0 [] ++ (some (9 : Expr)).toList) ∧
    (worker_thread 0 (.normal outC8 (some 9)) stC8).pasms = stC8.pasms ∧
    (processEvents [0] evsC8 stC8).pasms = stC8.pasms :=
  claim_C8 stC8 0 outC8 (some 9) orcC8 1 (processEvents [0] evsC8 stC8)
    (by decide) (by rfl)

/-- Claim C9: after the round loop exits, the solving statistics of every
worker context are folded into the primary context's aggregate
statistics, and this happens unconditionally — whatever the final state
(sat result, unsat result, undef, or no winner recorded so that the
captured exception is raised), the primary context returned by the
epilogue carries the fold of all workers' statistics. -/
theorem claim_C9 (st : CallState) (pc : PrimaryCtx) :
    (epilogue st pc).1.aux_stats =
      st.workers.foldl (fun a w => a + w.stats) pc.aux_stats := by
  rcases hf : st.finished_id with _ | fid
  · simp [epilogue, hf]
  · rcases hr : st.result with _ | _ | _ <;>
      rcases hm : (st.workers.getD fid default).model_val with _ | mdl <;>
      rw [List.getD_eq_getElem?_getD] at hm <;>
      simp [epilogue, hf, hr, hm]

/-- Claim C10: if the winning worker's result is satisfiable but its
context yields no model, the call still returns the satisfiable result
while leaving the primary context's stored model unchanged. -/
theorem claim_C10 (st : CallState) (pc : PrimaryCtx) (i : Nat)
    (h1 : st.finished_id = some i) (h2 : st.result = .l_true)
    (h3 : (st.workers.getD i default).model_val = none) :
    (epilogue st pc).1.m_model = pc.m_model ∧
    (epilogue st pc).2 = .ok .l_true := by
  rw [List.getD_eq_getElem?_getD] at h3
  simp [epilogue, h1, h2, h3]

/-- Claim C10, witness: the theorem applied to a concrete winning state
with a sat result and no model. -/
theorem claim_C10_witness :
    (epilogue stC10 ⟨0, some 7, []⟩).1.m_model = some 7 ∧
    (epilogue stC10 ⟨0, some 7, []⟩).2 = .ok .l_true :=
  claim_C10 stC10 ⟨0, some 7, []⟩ 0 rfl rfl rfl

end smt

